import Mathlib

/-!
Verification development for a GIF codec: a byte-driven streaming decoder
(`src/reader/decoder.rs`) and an encoder (`src/encoder.rs`).

The decoder is embedded as a pure transition function `next_state` over an
explicit decoder record, mirroring `StreamingDecoder::next_state`, plus a
driver `update` mirroring `StreamingDecoder::update`.  The `weezl` LZW
library is external to the repository; it is abstracted by an oracle
(`LzwOracle`) as described in the specification.  Machine integers are
modelled as `Nat` (inputs are bytes, casts are written with `% 256` where
the source casts).
-/

namespace GifSpec

/-- Modelled from the spec: block introducer tags from `common.rs`
    (Image = 0x2C, Extension = 0x21, Trailer = 0x3B), which is not under
    `src/`. -/
inductive Block
  | image
  | extension
  | trailer
deriving DecidableEq

/-- Modelled from the spec: `Block::from_u8` from `common.rs`. -/
def Block.from_u8 (n : Nat) : Option Block :=
  if n = 0x2C then some .image
  else if n = 0x21 then some .extension
  else if n = 0x3B then some .trailer
  else none

/-- Modelled from the spec: extension labels from `common.rs`
    (0x01 PlainText, 0xF9 Control, 0xFE Comment, 0xFF Application). -/
inductive Extension
  | text
  | control
  | comment
  | application
deriving DecidableEq

/-- Modelled from the spec: `Extension::from_u8` from `common.rs`. -/
def Extension.from_u8 (n : Nat) : Option Extension :=
  if n = 0x01 then some .text
  else if n = 0xF9 then some .control
  else if n = 0xFE then some .comment
  else if n = 0xFF then some .application
  else none

/-- Modelled from the spec: disposal methods from `common.rs`. -/
inductive DisposalMethod
  | any
  | keep
  | background
  | previous
deriving DecidableEq

/-- Modelled from the spec: `DisposalMethod::from_u8` maps 0..=3 to the four
    methods and anything else to `None`. -/
def DisposalMethod.from_u8 (n : Nat) : Option DisposalMethod :=
  if n = 0 then some .any
  else if n = 1 then some .keep
  else if n = 2 then some .background
  else if n = 3 then some .previous
  else none

/-- Numeric value of a disposal method (`dispose as u8` on the encoder side). -/
def DisposalMethod.toU8 : DisposalMethod → Nat
  | .any => 0
  | .keep => 1
  | .background => 2
  | .previous => 3

/-- Modelled from the spec: the `Frame` record from `common.rs`.  The local
    palette is a byte list; `palette_cap` models the capacity reserved for
    that `Vec` by `try_reserve_exact` (0 when no palette is present). -/
structure Frame where
  delay : Nat
  dispose : DisposalMethod
  transparent : Option Nat
  needs_user_input : Bool
  top : Nat
  left : Nat
  width : Nat
  height : Nat
  interlaced : Bool
  palette : Option (List Nat)
  palette_cap : Nat
  buffer : List Nat
deriving DecidableEq

/-- Modelled from the spec: `Frame::default()` — all-zero geometry and delay,
    no transparency, no palette, empty pixel buffer. -/
def Frame.default : Frame :=
  { delay := 0, dispose := .any, transparent := none, needs_user_input := false,
    top := 0, left := 0, width := 0, height := 0, interlaced := false,
    palette := none, palette_cap := 0, buffer := [] }

/-- One version number of the GIF standard (`Version` in `decoder.rs`). -/
inductive Version
  | v87a
  | v89a
deriving DecidableEq

/-- U16 values that may occur in a GIF image (`U16Value` in `decoder.rs`). -/
inductive U16Value
  | screenWidth
  | screenHeight
  | delay
  | imageLeft
  | imageTop
  | imageWidth
  | imageHeight
deriving DecidableEq

/-- Single byte screen descriptor values (`ByteValue` in `decoder.rs`). -/
inductive ByteValue
  | globalFlags
  | background (global_flags : Nat)
  | aspectRatio (global_flags : Nat)
  | controlFlags
  | imageFlags
  | transparentIdx
  | codeSize
deriving DecidableEq

/-- Internal state of the GIF decoder (`State` in `decoder.rs`).  The
    `magic` buffer `[u8; 6]` is a six-element list. -/
inductive State
  | magic (i : Nat) (version : List Nat)
  | u16Byte1 (v : U16Value) (lo : Nat)
  | u16 (v : U16Value)
  | byte (v : ByteValue)
  | globalPalette (left : Nat)
  | blockStart (tag : Nat)
  | blockEnd (terminator : Nat)
  | extensionBlock (id : Nat)
  | skipBlock (left : Nat)
  | localPalette (left : Nat)
  | lzwInit (min_code_size : Nat)
  | decodeSubBlock (left : Nat)
  | copySubBlock (left : Nat)
  | frameDecoded
  | trailer
deriving DecidableEq

/-- Frame data type reported by `FrameMetadata` (`FrameDataType` in
    `decoder.rs`). -/
inductive FrameDataType
  | pixels
  | lzw (min_code_size : Nat)
deriving DecidableEq

/-- Decoding result of one `update` call (`Decoded` in `decoder.rs`).
    Borrowed payloads are modelled by value. -/
inductive Decoded
  | nothing
  | globalPalette (table : List Nat)
  | backgroundColor (idx : Nat)
  | trailer
  | blockStart (block : Block)
  | subBlockFinished (id : Nat) (data : List Nat)
  | blockFinished (id : Nat) (data : List Nat)
  | frameMetadata (frame : Frame) (kind : FrameDataType)
  | bytesDecoded (n : Nat)
  | lzwDataCopied (n : Nat)
  | dataEnd
deriving DecidableEq

/-- Kinds of `std::io::Error` produced by the decoder. -/
inductive IoKind
  | invalidData
  | unsupported
  | outOfMemory
deriving DecidableEq

/-- Decoding error (`DecodingError` in `decoder.rs`): a `Format` error wraps a
    descriptive message, an `Io` error wraps an `io::Error` (kind and
    message). -/
inductive DecodingError
  | format (msg : String)
  | ioError (kind : IoKind) (msg : String)
deriving DecidableEq

/-- Whether a decoding error is a `Format` error. -/
def DecodingError.isFormat : DecodingError → Bool
  | .format _ => true
  | .ioError _ _ => false

/-- Output sink for decoded data (`OutputBuffer` in `decoder.rs`).  A slice
    is modelled by its length only: the decoder's control flow depends only
    on how many bytes the slice can hold, never on its contents.  `discard`
    is the source's `OutputBuffer::None`. -/
inductive OutputBuffer
  | slice (len : Nat)
  | vec
  | discard
deriving DecidableEq

/-- Modelled from the spec: the statuses reported by the external `weezl`
    LZW decoder.  `LzwStatus::{Ok, Done, NoProgress}` plus the error
    `LzwError::InvalidCode` are folded into one report. -/
inductive LzwStatus
  | ok
  | done
  | noProgress
  | invalidCode
deriving DecidableEq

/-- Modelled from the spec: the behaviour of the external `weezl` LZW
    decoder, abstracted as functions of the minimal code size and of the
    cumulative compressed bytes fed so far: `produced` is the cumulative
    count of decoded bytes, `statusOf` the status after feeding those bytes,
    and `endedAfter` the `has_ended` flag. -/
structure LzwOracle where
  produced : Nat → List Nat → Nat
  statusOf : Nat → List Nat → LzwStatus
  endedAfter : Nat → List Nat → Bool

/-- `LzwReader` from `decoder.rs`: an optional `weezl` decoder (`has_decoder`
    models `decoder.is_some()`; the decoder's own state is the cumulative
    `fed` byte list), the cached minimal code size, and the
    `check_for_end_code` policy. -/
structure LzwReader where
  min_code_size : Nat
  has_decoder : Bool
  fed : List Nat
  check_for_end_code : Bool
deriving DecidableEq

/-- `LzwReader::has_ended`: `decoder.as_ref().map_or(true, has_ended)`. -/
def LzwReader.has_ended (r : LzwReader) (O : LzwOracle) : Bool :=
  if r.has_decoder then O.endedAfter r.min_code_size r.fed else true

/-- `LzwReader::decode_bytes` (decoder.rs lines 247-270).  Returns
    `(reader', consumed_in, consumed_out)` or an `io::Error` (kind,
    message).  A missing decoder and a `Vec` output buffer are
    `ErrorKind::Unsupported`; `NoProgress` under `check_for_end_code` and an
    invalid code are `ErrorKind::InvalidData` with the source's messages.
    The weezl call itself is modelled from the spec: it consumes all bytes
    it is given and its cumulative production is given by the oracle. -/
def LzwReader.decode_bytes (r : LzwReader) (O : LzwOracle) (lzw_data : List Nat)
    (w : OutputBuffer) : Except (IoKind × String) (LzwReader × Nat × Nat) :=
  if r.has_decoder = false then .error (.unsupported, "unsupported")
  else match w with
  | .vec => .error (.unsupported, "unsupported")
  | _ =>
    let fed' := r.fed ++ lzw_data
    let out := O.produced r.min_code_size fed' - O.produced r.min_code_size r.fed
    match O.statusOf r.min_code_size fed' with
    | .invalidCode => .error (.invalidData, "invalid code in LZW stream")
    | .noProgress =>
      if r.check_for_end_code then .error (.invalidData, "No end code in lzw stream")
      else .ok ({ r with fed := fed' }, lzw_data.length, out)
    | _ => .ok ({ r with fed := fed' }, lzw_data.length, out)

/-- The decoder's extension scratch (struct `ExtensionData` in `decoder.rs`;
    the spec calls it ExtensionScratch). -/
structure ExtensionScratch where
  id : Nat
  data : List Nat
  is_block_end : Bool
deriving DecidableEq

/-- GIF decoder which supports streaming (`StreamingDecoder` in
    `decoder.rs`).  `skip_extensions` is omitted: it is deprecated and read
    nowhere. -/
structure StreamingDecoder where
  state : State
  lzw_reader : LzwReader
  skip_frame_decoding : Bool
  check_frame_consistency : Bool
  allow_unknown_blocks : Bool
  version : Version
  width : Nat
  height : Nat
  global_color_table : List Nat
  background_color : List Nat
  ext : ExtensionScratch
  current : Option Frame
deriving DecidableEq

/-- `StreamingDecoder::with_options` (the four `DecodeOptions` flags made
    explicit). -/
def StreamingDecoder.with_options (check_for_end_code skip_frame_decoding
    check_frame_consistency allow_unknown_blocks : Bool) : StreamingDecoder :=
  { state := .magic 0 (List.replicate 6 0),
    lzw_reader := { min_code_size := 0, has_decoder := false, fed := [],
                    check_for_end_code := check_for_end_code },
    skip_frame_decoding := skip_frame_decoding,
    check_frame_consistency := check_frame_consistency,
    allow_unknown_blocks := allow_unknown_blocks,
    version := .v87a,
    width := 0, height := 0,
    global_color_table := [],
    background_color := [0, 0, 0, 0xFF],
    ext := { id := 0, data := [], is_block_end := true },
    current := none }

/-- `u16::checked_sub`. -/
def checkedSub (a b : Nat) : Option Nat :=
  if b ≤ a then some (a - b) else none

/-- The `Ord` instance of `Option<u16>`: `None` is below every `Some`. -/
def optLt : Option Nat → Option Nat → Bool
  | none, some _ => true
  | none, none => false
  | some _, none => false
  | some x, some y => decide (x < y)

/-- `self.add_frame()`: installs a default frame if none is present. -/
def addFrame (c : Option Frame) : Option Frame :=
  if c.isNone then some Frame.default else c

/-- Result of `next_state` / `update`: a successful step returns the mutated
    decoder, the consumed byte count and the decoded event; `fail` returns
    the mutated decoder and the error (the source's `&mut self` retains
    mutations made before an early `return Err`); `crashed` models a Rust
    panic (an `unwrap()` of `None`, reachable only from decoder values that
    no parse produces). -/
inductive StepRes
  | ok (d : StreamingDecoder) (n : Nat) (ev : Decoded)
  | fail (d : StreamingDecoder) (e : DecodingError)
  | crashed
deriving DecidableEq

/-- `StreamingDecoder::next_state` (decoder.rs lines 439-764): one
    transition of the decoder on a non-empty input prefix.  Each arm mirrors
    the corresponding `match self.state` arm; `goto!(n, s, emit r)` becomes
    `.ok {d with state := s, ...} n r`. -/
def StreamingDecoder.next_state (O : LzwOracle) (write_into : OutputBuffer)
    (d : StreamingDecoder) (buf : List Nat) : StepRes :=
  match buf with
  | [] => .fail d (.format "empty buf")
  | b :: _ =>
    match d.state with
    | .magic i version =>
      if i < 6 then
        .ok { d with state := .magic (i + 1) (version.set i b) } 1 .nothing
      else if version.take 3 = [0x47, 0x49, 0x46] then
        match version.drop 3 with
        | [0x38, 0x37, 0x61] =>
          .ok { d with version := .v87a, state := .u16Byte1 .screenWidth b } 1 .nothing
        | [0x38, 0x39, 0x61] =>
          .ok { d with version := .v89a, state := .u16Byte1 .screenWidth b } 1 .nothing
        | _ => .fail d (.format "unsupported GIF version")
      else .fail d (.format "malformed GIF header")
    | .u16 next => .ok { d with state := .u16Byte1 next b } 1 .nothing
    | .u16Byte1 next value =>
      let value := b <<< 8 ||| value
      match next with
      | .screenWidth =>
        .ok { d with width := value, state := .u16 .screenHeight } 1 .nothing
      | .screenHeight =>
        .ok { d with height := value, state := .byte .globalFlags } 1 .nothing
      | .delay =>
        match d.current with
        | none => .crashed
        | some fr =>
          .ok { d with
                current := some { fr with delay := value },
                ext := { d.ext with data := d.ext.data ++ [value % 256, b] },
                state := .byte .transparentIdx } 1 .nothing
      | .imageLeft =>
        match d.current with
        | none => .crashed
        | some fr =>
          .ok { d with
                current := some { fr with left := value },
                state := .u16 .imageTop } 1 .nothing
      | .imageTop =>
        match d.current with
        | none => .crashed
        | some fr =>
          .ok { d with
                current := some { fr with top := value },
                state := .u16 .imageWidth } 1 .nothing
      | .imageWidth =>
        match d.current with
        | none => .crashed
        | some fr =>
          .ok { d with
                current := some { fr with width := value },
                state := .u16 .imageHeight } 1 .nothing
      | .imageHeight =>
        match d.current with
        | none => .crashed
        | some fr =>
          .ok { d with
                current := some { fr with height := value },
                state := .byte .imageFlags } 1 .nothing
    | .byte v =>
      match v with
      | .globalFlags => .ok { d with state := .byte (.background b) } 1 .nothing
      | .background global_flags =>
        .ok { d with state := .byte (.aspectRatio global_flags) } 1 (.backgroundColor b)
      | .aspectRatio global_flags =>
        let table_size :=
          if global_flags &&& 0x80 ≠ 0 then 3 * (1 <<< ((global_flags &&& 7) + 1)) else 0
        .ok { d with state := .globalPalette table_size } 1 .nothing
      | .controlFlags =>
        match d.current with
        | none => .crashed
        | some fr =>
          let control_flags := b
          .ok { d with
                ext := { d.ext with data := d.ext.data ++ [b] },
                current := some { fr with
                  transparent := if control_flags &&& 1 ≠ 0 then some 0 else fr.transparent,
                  needs_user_input := control_flags &&& 2 ≠ 0,
                  dispose := (DisposalMethod.from_u8 ((control_flags &&& 28) >>> 2)).getD .any },
                state := .u16 .delay } 1 .nothing
      | .transparentIdx =>
        match d.current with
        | none => .crashed
        | some fr =>
          .ok { d with
                ext := { d.ext with data := d.ext.data ++ [b] },
                current := some { fr with transparent := fr.transparent.map (fun _ => b) },
                state := .skipBlock 0 } 1 .nothing
      | .imageFlags =>
        match d.current with
        | none => .crashed
        | some fr =>
          let local_table := b &&& 0x80 ≠ 0
          let interlaced := b &&& 0x40 ≠ 0
          let table_size := b &&& 7
          let fr := { fr with interlaced := interlaced }
          if d.check_frame_consistency &&
              (optLt (checkedSub d.width fr.width) (some fr.left) ||
               optLt (checkedSub d.height fr.height) (some fr.top)) then
            .fail { d with current := some fr } (.format "frame descriptor is out-of-bounds")
          else if local_table then
            let entries := 3 * (1 <<< (table_size + 1))
            .ok { d with
                  current := some { fr with palette := some [], palette_cap := entries },
                  state := .localPalette entries } 1 .nothing
          else .ok { d with current := some fr, state := .byte .codeSize } 1 .nothing
      | .codeSize => .ok { d with state := .lzwInit b } 1 .nothing
    | .globalPalette left =>
      let n := min left buf.length
      if 0 < left then
        .ok { d with
              global_color_table := d.global_color_table ++ buf.take n,
              state := .globalPalette (left - n) } n .nothing
      else
        let idx := d.background_color.headD 0
        let table := d.global_color_table
        let bc :=
          if 3 * idx + 3 ≤ table.length then
            (((d.background_color.set 0 (table.getD (3 * idx) 0)).set 1
                (table.getD (3 * idx + 1) 0)).set 2 (table.getD (3 * idx + 2) 0))
          else d.background_color.set 0 0
        .ok { d with
              background_color := bc, global_color_table := [],
              state := .blockStart b } 1 (.globalPalette table)
    | .blockStart tag =>
      match Block.from_u8 tag with
      | some .image =>
        .ok { d with
              current := addFrame d.current,
              state := .u16Byte1 .imageLeft b } 1 (.blockStart .image)
      | some .extension =>
        .ok { d with state := .extensionBlock b } 1 (.blockStart .extension)
      | some .trailer =>
        .ok { d with state := .trailer } 0 (.blockStart .trailer)
      | none =>
        if d.allow_unknown_blocks then .ok { d with state := .skipBlock b } 1 .nothing
        else .fail d (.format "unknown block type encountered")
    | .blockEnd terminator =>
      if terminator = 0 then
        if b = 0x3B then .ok { d with state := .blockStart b } 0 .nothing
        else .ok { d with state := .blockStart b } 1 .nothing
      else .fail d (.format "expected block terminator not found")
    | .extensionBlock id =>
      let ext1 : ExtensionScratch := { id := id, data := [b], is_block_end := d.ext.is_block_end }
      match Extension.from_u8 id with
      | some .control =>
        let cur := addFrame d.current
        let ext2 : ExtensionScratch := { ext1 with data := ext1.data ++ [b] }
        if b ≠ 4 then
          .fail { d with ext := ext2, current := cur } (.format "control extension has wrong length")
        else .ok { d with ext := ext2, current := cur, state := .byte .controlFlags } 1 .nothing
      | some _ => .ok { d with ext := ext1, state := .skipBlock b } 1 .nothing
      | none => .fail { d with ext := ext1 } (.format "unknown extention block encountered")
    | .skipBlock left =>
      let n := min left buf.length
      if 0 < left then
        .ok { d with
              ext := { d.ext with data := d.ext.data ++ buf.take n },
              state := .skipBlock (left - n) } n .nothing
      else if b = 0 then
        .ok { d with ext := { d.ext with is_block_end := true }, state := .blockEnd b } 1
          (.blockFinished d.ext.id d.ext.data)
      else
        .ok { d with ext := { d.ext with is_block_end := false }, state := .skipBlock b } 1
          (.subBlockFinished d.ext.id d.ext.data)
    | .localPalette left =>
      let n := min left buf.length
      if 0 < left then
        match d.current with
        | none => .crashed
        | some fr =>
          let fr' :=
            match fr.palette with
            | some pal =>
              if n ≤ fr.palette_cap - pal.length then
                { fr with palette := some (pal ++ buf.take n) }
              else fr
            | none => fr
          .ok { d with current := some fr', state := .localPalette (left - n) } n .nothing
      else .ok { d with state := .lzwInit b } 1 .nothing
    | .lzwInit min_code_size =>
      if d.skip_frame_decoding = false then
        if 11 < min_code_size then .fail d (.format "invalid minimal code size")
        else
          let r := { d.lzw_reader with
                     min_code_size := min_code_size,
                     has_decoder := true, fed := [] }
          match d.current with
          | none => .crashed
          | some fr =>
            .ok { d with lzw_reader := r, state := .decodeSubBlock b } 1
              (.frameMetadata fr .pixels)
      else
        match d.current with
        | none => .crashed
        | some fr =>
          .ok { d with state := .copySubBlock b } 1
            (.frameMetadata fr (.lzw min_code_size))
    | .copySubBlock left =>
      if 0 < left then
        let n := min left buf.length
        match write_into with
        | .slice len =>
          let c := min n len
          .ok { d with state := .copySubBlock (left - c) } c (.lzwDataCopied c)
        | .vec => .ok { d with state := .copySubBlock (left - n) } n (.lzwDataCopied n)
        | .discard => .ok { d with state := .copySubBlock (left - n) } n (.lzwDataCopied 0)
      else if b ≠ 0 then .ok { d with state := .copySubBlock b } 1 .nothing
      else .ok { d with state := .frameDecoded } 0 .nothing
    | .decodeSubBlock left =>
      if 0 < left then
        let n := min left buf.length
        if d.lzw_reader.has_ended O || write_into = .discard then
          .ok { d with state := .decodeSubBlock 0 } n (.bytesDecoded 0)
        else
          match d.lzw_reader.decode_bytes O (buf.take n) write_into with
          | .error (k, msg) => .fail d (.ioError k msg)
          | .ok (r, consumed, bytes_len) =>
            -- the source's `if consumed == 0 && bytes_len == 0 { consumed = n }` is
            -- vacuous here: the modelled decode consumes all `n ≥ 1` bytes given
            .ok { d with lzw_reader := r, state := .decodeSubBlock (left - consumed) }
              consumed (.bytesDecoded bytes_len)
      else if b ≠ 0 then .ok { d with state := .decodeSubBlock b } 1 .nothing
      else
        match d.lzw_reader.decode_bytes O [] write_into with
        | .error (k, msg) => .fail d (.ioError k msg)
        | .ok (r, _, bytes_len) =>
          if 0 < bytes_len then
            .ok { d with lzw_reader := r, state := .decodeSubBlock 0 } 0 (.bytesDecoded bytes_len)
          else .ok { d with lzw_reader := r, state := .frameDecoded } 0 .nothing
    | .frameDecoded =>
      .ok { d with current := none, state := .blockEnd b } 1 .dataEnd
    | .trailer => .ok d 0 .trailer

/-- Rank bounding the chains of zero-consumption `Nothing` transitions inside
    one `update` call (`BlockEnd` can step to `BlockStart` and
    `Copy/DecodeSubBlock` to `FrameDecoded` without consuming a byte). -/
def urank : State → Nat
  | .blockEnd _ => 2
  | .copySubBlock _ => 2
  | .decodeSubBlock _ => 2
  | .frameDecoded => 1
  | .blockStart _ => 1
  | _ => 0

/-- Fuelled loop of `StreamingDecoder::update`: repeat `next_state` while it
    consumes input and decodes nothing, accumulating the consumed count.
    `update` supplies fuel that is always sufficient (see `update_cons`), so
    the `0` case is never reached. -/
def updateF (O : LzwOracle) (w : OutputBuffer) : Nat → StreamingDecoder → List Nat → StepRes
  | 0, _, _ => .crashed
  | _ + 1, d, [] => .ok d 0 .nothing
  | f + 1, d, b :: rest =>
    match d.next_state O w (b :: rest) with
    | .ok d' n .nothing =>
      match updateF O w f d' (List.drop n (b :: rest)) with
      | .ok d'' m ev => .ok d'' (n + m) ev
      | r => r
    | r => r

/-- `StreamingDecoder::update` (decoder.rs lines 349-392): consume a prefix
    of `buf` and return the consumed count together with the first
    non-`Nothing` event, or `(buf.length, Nothing)` when input runs out. -/
def StreamingDecoder.update (O : LzwOracle) (w : OutputBuffer)
    (d : StreamingDecoder) (buf : List Nat) : StepRes :=
  updateF O w (2 * buf.length + 3) d buf

/-- Canonical observables: decoder events with the byte counts of
    `BytesDecoded`/`LzwDataCopied` expanded into unit events, so that the
    canonical stream is invariant under regrouping of data progress. -/
inductive CEvent
  | globalPalette (table : List Nat)
  | backgroundColor (idx : Nat)
  | trailer
  | blockStart (block : Block)
  | subBlockFinished (id : Nat) (data : List Nat)
  | blockFinished (id : Nat) (data : List Nat)
  | frameMetadata (frame : Frame) (kind : FrameDataType)
  | decodedByte
  | copiedByte
  | dataEnd
deriving DecidableEq

/-- Canonical form of one decoded event. -/
def canon : Decoded → List CEvent
  | .nothing => []
  | .globalPalette t => [.globalPalette t]
  | .backgroundColor i => [.backgroundColor i]
  | .trailer => [.trailer]
  | .blockStart k => [.blockStart k]
  | .subBlockFinished i dt => [.subBlockFinished i dt]
  | .blockFinished i dt => [.blockFinished i dt]
  | .frameMetadata f k => [.frameMetadata f k]
  | .bytesDecoded n => List.replicate n .decodedByte
  | .lzwDataCopied n => List.replicate n .copiedByte
  | .dataEnd => [.dataEnd]

/-- Outcome of the per-byte reference semantics on one byte: continue with a
    mutated decoder, halt at the trailer, fail, crash, or get stuck (a
    zero-length slice sink in copy mode accepts no byte). -/
inductive Res1
  | cont (d : StreamingDecoder) (es : List CEvent)
  | halt (es : List CEvent)
  | failed (e : DecodingError)
  | crashed
  | stuck
deriving DecidableEq

/-- Per-byte reference semantics: the decoder's evolution while it consumes
    exactly the byte `b` (zero-consumption transitions that precede or
    follow the byte-consuming one are folded in; at the trailer the byte is
    never consumed and the run halts). -/
def run1 (O : LzwOracle) (write_into : OutputBuffer)
    (d : StreamingDecoder) (b : Nat) : Res1 :=
  match d.state with
  | .magic i version =>
    if i < 6 then .cont { d with state := .magic (i + 1) (version.set i b) } []
    else if version.take 3 = [0x47, 0x49, 0x46] then
      match version.drop 3 with
      | [0x38, 0x37, 0x61] =>
        .cont { d with version := .v87a, state := .u16Byte1 .screenWidth b } []
      | [0x38, 0x39, 0x61] =>
        .cont { d with version := .v89a, state := .u16Byte1 .screenWidth b } []
      | _ => .failed (.format "unsupported GIF version")
    else .failed (.format "malformed GIF header")
  | .u16 next => .cont { d with state := .u16Byte1 next b } []
  | .u16Byte1 next value =>
    let value := b <<< 8 ||| value
    match next with
    | .screenWidth => .cont { d with width := value, state := .u16 .screenHeight } []
    | .screenHeight => .cont { d with height := value, state := .byte .globalFlags } []
    | .delay =>
      match d.current with
      | none => .crashed
      | some fr =>
        .cont { d with
                current := some { fr with delay := value },
                ext := { d.ext with data := d.ext.data ++ [value % 256, b] },
                state := .byte .transparentIdx } []
    | .imageLeft =>
      match d.current with
      | none => .crashed
      | some fr =>
        .cont { d with
                current := some { fr with left := value },
                state := .u16 .imageTop } []
    | .imageTop =>
      match d.current with
      | none => .crashed
      | some fr =>
        .cont { d with
                current := some { fr with top := value },
                state := .u16 .imageWidth } []
    | .imageWidth =>
      match d.current with
      | none => .crashed
      | some fr =>
        .cont { d with
                current := some { fr with width := value },
                state := .u16 .imageHeight } []
    | .imageHeight =>
      match d.current with
      | none => .crashed
      | some fr =>
        .cont { d with
                current := some { fr with height := value },
                state := .byte .imageFlags } []
  | .byte v =>
    match v with
    | .globalFlags => .cont { d with state := .byte (.background b) } []
    | .background global_flags =>
      .cont { d with state := .byte (.aspectRatio global_flags) } [.backgroundColor b]
    | .aspectRatio global_flags =>
      let table_size :=
        if global_flags &&& 0x80 ≠ 0 then 3 * (1 <<< ((global_flags &&& 7) + 1)) else 0
      .cont { d with state := .globalPalette table_size } []
    | .controlFlags =>
      match d.current with
      | none => .crashed
      | some fr =>
        let control_flags := b
        .cont { d with
                ext := { d.ext with data := d.ext.data ++ [b] },
                current := some { fr with
                  transparent := if control_flags &&& 1 ≠ 0 then some 0 else fr.transparent,
                  needs_user_input := control_flags &&& 2 ≠ 0,
                  dispose := (DisposalMethod.from_u8 ((control_flags &&& 28) >>> 2)).getD .any },
                state := .u16 .delay } []
    | .transparentIdx =>
      match d.current with
      | none => .crashed
      | some fr =>
        .cont { d with
                ext := { d.ext with data := d.ext.data ++ [b] },
                current := some { fr with transparent := fr.transparent.map (fun _ => b) },
                state := .skipBlock 0 } []
    | .imageFlags =>
      match d.current with
      | none => .crashed
      | some fr =>
        let local_table := b &&& 0x80 ≠ 0
        let interlaced := b &&& 0x40 ≠ 0
        let table_size := b &&& 7
        let fr := { fr with interlaced := interlaced }
        if d.check_frame_consistency &&
            (optLt (checkedSub d.width fr.width) (some fr.left) ||
             optLt (checkedSub d.height fr.height) (some fr.top)) then
          .failed (.format "frame descriptor is out-of-bounds")
        else if local_table then
          let entries := 3 * (1 <<< (table_size + 1))
          .cont { d with
                  current := some { fr with palette := some [], palette_cap := entries },
                  state := .localPalette entries } []
        else .cont { d with current := some fr, state := .byte .codeSize } []
    | .codeSize => .cont { d with state := .lzwInit b } []
  | .globalPalette left =>
    if 0 < left then
      .cont { d with
              global_color_table := d.global_color_table ++ [b],
              state := .globalPalette (left - 1) } []
    else
      let idx := d.background_color.headD 0
      let table := d.global_color_table
      let bc :=
        if 3 * idx + 3 ≤ table.length then
          (((d.background_color.set 0 (table.getD (3 * idx) 0)).set 1
              (table.getD (3 * idx + 1) 0)).set 2 (table.getD (3 * idx + 2) 0))
        else d.background_color.set 0 0
      .cont { d with
              background_color := bc, global_color_table := [],
              state := .blockStart b } [.globalPalette table]
  | .blockStart tag =>
    match Block.from_u8 tag with
    | some .image =>
      .cont { d with
              current := addFrame d.current,
              state := .u16Byte1 .imageLeft b } [.blockStart .image]
    | some .extension =>
      .cont { d with state := .extensionBlock b } [.blockStart .extension]
    | some .trailer => .halt [.blockStart .trailer, .trailer]
    | none =>
      if d.allow_unknown_blocks then .cont { d with state := .skipBlock b } []
      else .failed (.format "unknown block type encountered")
  | .blockEnd terminator =>
    if terminator = 0 then
      if b = 0x3B then .halt [.blockStart .trailer, .trailer]
      else .cont { d with state := .blockStart b } []
    else .failed (.format "expected block terminator not found")
  | .extensionBlock id =>
    let ext1 : ExtensionScratch := { id := id, data := [b], is_block_end := d.ext.is_block_end }
    match Extension.from_u8 id with
    | some .control =>
      let cur := addFrame d.current
      let ext2 : ExtensionScratch := { ext1 with data := ext1.data ++ [b] }
      if b ≠ 4 then .failed (.format "control extension has wrong length")
      else .cont { d with ext := ext2, current := cur, state := .byte .controlFlags } []
    | some _ => .cont { d with ext := ext1, state := .skipBlock b } []
    | none => .failed (.format "unknown extention block encountered")
  | .skipBlock left =>
    if 0 < left then
      .cont { d with
              ext := { d.ext with data := d.ext.data ++ [b] },
              state := .skipBlock (left - 1) } []
    else if b = 0 then
      .cont { d with ext := { d.ext with is_block_end := true }, state := .blockEnd b }
        [.blockFinished d.ext.id d.ext.data]
    else
      .cont { d with ext := { d.ext with is_block_end := false }, state := .skipBlock b }
        [.subBlockFinished d.ext.id d.ext.data]
  | .localPalette left =>
    if 0 < left then
      match d.current with
      | none => .crashed
      | some fr =>
        let fr' :=
          match fr.palette with
          | some pal =>
            if 1 ≤ fr.palette_cap - pal.length then { fr with palette := some (pal ++ [b]) }
            else fr
          | none => fr
        .cont { d with current := some fr', state := .localPalette (left - 1) } []
    else .cont { d with state := .lzwInit b } []
  | .lzwInit min_code_size =>
    if d.skip_frame_decoding = false then
      if 11 < min_code_size then .failed (.format "invalid minimal code size")
      else
        let r := { d.lzw_reader with
                   min_code_size := min_code_size,
                   has_decoder := true, fed := [] }
        match d.current with
        | none => .crashed
        | some fr =>
          .cont { d with lzw_reader := r, state := .decodeSubBlock b }
            [.frameMetadata fr .pixels]
    else
      match d.current with
      | none => .crashed
      | some fr =>
        .cont { d with state := .copySubBlock b } [.frameMetadata fr (.lzw min_code_size)]
  | .copySubBlock left =>
    if 0 < left then
      match write_into with
      | .slice len =>
        if len = 0 then .stuck
        else .cont { d with state := .copySubBlock (left - 1) } [.copiedByte]
      | .vec => .cont { d with state := .copySubBlock (left - 1) } [.copiedByte]
      | .discard => .cont { d with state := .copySubBlock (left - 1) } []
    else if b ≠ 0 then .cont { d with state := .copySubBlock b } []
    else .cont { d with current := none, state := .blockEnd b } [.dataEnd]
  | .decodeSubBlock left =>
    if 0 < left then
      if d.lzw_reader.has_ended O || write_into = .discard then
        .cont { d with state := .decodeSubBlock 0 } []
      else
        match d.lzw_reader.decode_bytes O [b] write_into with
        | .error (k, msg) => .failed (.ioError k msg)
        | .ok (r, _, bytes_len) =>
          .cont { d with lzw_reader := r, state := .decodeSubBlock (left - 1) }
            (List.replicate bytes_len .decodedByte)
    else if b ≠ 0 then .cont { d with state := .decodeSubBlock b } []
    else
      match d.lzw_reader.decode_bytes O [] write_into with
      | .error (k, msg) => .failed (.ioError k msg)
      | .ok (r, _, bytes_len) =>
        .cont { d with lzw_reader := r, current := none, state := .blockEnd b }
          (List.replicate bytes_len .decodedByte ++ [.dataEnd])
  | .frameDecoded => .cont { d with current := none, state := .blockEnd b } [.dataEnd]
  | .trailer => .halt [.trailer]

/-- Final outcome of a per-byte run. -/
inductive RunOut
  | running (d : StreamingDecoder)
  | halted
  | failed (e : DecodingError)
  | crashed
  | stuck
deriving DecidableEq

/-- Result of a per-byte run: canonical events and final outcome. -/
structure RunRes where
  es : List CEvent
  out : RunOut
deriving DecidableEq

/-- Fold the per-byte semantics over a byte list, short-circuiting at a
    halt, failure, crash or stuck step. -/
def runBytes (O : LzwOracle) (w : OutputBuffer) :
    StreamingDecoder → List Nat → RunRes
  | d, [] => ⟨[], .running d⟩
  | d, b :: rest =>
    match run1 O w d b with
    | .cont d' es =>
      let r := runBytes O w d' rest
      ⟨es ++ r.es, r.out⟩
    | .halt es => ⟨es, .halted⟩
    | .failed e => ⟨[], .failed e⟩
    | .crashed => ⟨[], .crashed⟩
    | .stuck => ⟨[], .stuck⟩

/-- Final outcome of an `update`-driven run. -/
inductive DOut
  | exhausted (d : StreamingDecoder)
  | halted
  | failed (e : DecodingError)
  | crashed
  | stuck
deriving DecidableEq

/-- Result of an `update`-driven run: raw events in order and final
    outcome. -/
structure DriveRes where
  es : List Decoded
  out : DOut
deriving DecidableEq

/-- Fuelled caller loop: call `update`, record the event, re-invoke with the
    unconsumed tail; stop when input is exhausted (`Nothing`), at the
    `Trailer` event, or on an error.  `drive` supplies sufficient fuel: each
    round either consumes input or is the zero-consumption
    `BlockStart(Trailer)` round that the trailer round follows. -/
def driveF (O : LzwOracle) (w : OutputBuffer) :
    Nat → StreamingDecoder → List Nat → DriveRes
  | 0, _, _ => ⟨[], .stuck⟩
  | _ + 1, d, [] => ⟨[], .exhausted d⟩
  | f + 1, d, b :: rest =>
    match d.update O w (b :: rest) with
    | .ok d' n ev =>
      match ev with
      | .nothing => ⟨[], .exhausted d'⟩
      | .trailer => ⟨[.trailer], .halted⟩
      | _ =>
        let r := driveF O w f d' (List.drop n (b :: rest))
        ⟨ev :: r.es, r.out⟩
    | .fail _ e => ⟨[], .failed e⟩
    | .crashed => ⟨[], .crashed⟩

/-- Feed one byte sequence to the decoder through repeated `update` calls. -/
def drive (O : LzwOracle) (w : OutputBuffer) (d : StreamingDecoder)
    (buf : List Nat) : DriveRes :=
  driveF O w (buf.length + 2) d buf

/-- Feed a partition of a byte stream chunk by chunk: each chunk is driven
    to exhaustion, then the next chunk is fed. -/
def driveChunks (O : LzwOracle) (w : OutputBuffer) :
    StreamingDecoder → List (List Nat) → DriveRes
  | d, [] => ⟨[], .exhausted d⟩
  | d, c :: cs =>
    match drive O w d c with
    | ⟨es, .exhausted d'⟩ =>
      let r := driveChunks O w d' cs
      ⟨es ++ r.es, r.out⟩
    | r => r

/-- Outcomes of an `update`-driven run, translated to per-byte outcomes. -/
def DOut.toRun : DOut → RunOut
  | .exhausted d => .running d
  | .halted => .halted
  | .failed e => .failed e
  | .crashed => .crashed
  | .stuck => .stuck

/-- Canonical view of an `update`-driven run. -/
def DriveRes.toCanon (r : DriveRes) : RunRes :=
  ⟨(r.es.map canon).flatten, r.out.toRun⟩

/-- Decoder invariant for the chunking theorem: a pending local palette
    still fits its reserved capacity, and LZW decoding only happens with a
    decoder present.  Both hold for every decoder the parser produces. -/
def Inv (d : StreamingDecoder) : Prop :=
  (∀ left fr pal, d.state = .localPalette left → d.current = some fr →
     fr.palette = some pal → pal.length + left ≤ fr.palette_cap) ∧
  (∀ left, d.state = .decodeSubBlock left → d.lzw_reader.has_decoder = true) ∧
  (∀ left, d.state = .decodeSubBlock left → d.skip_frame_decoding = false)

/-- Sink conditions for the chunking theorem: slice sinks accept at least
    one byte, and frame decoding (as opposed to copying) writes to a slice
    sink. -/
def WOk (w : OutputBuffer) (skip_frame_decoding : Bool) : Prop :=
  (∀ len, w = .slice len → 1 ≤ len) ∧
  (skip_frame_decoding = false → ∃ len, w = .slice len)

/-- Oracle conditions for the chunking theorem: cumulative LZW output grows
    with the input, and the LZW stream neither ends early nor reports
    no-progress or an invalid code. -/
def OracleOk (O : LzwOracle) : Prop :=
  (∀ m xs ys, O.produced m xs ≤ O.produced m (xs ++ ys)) ∧
  (∀ m xs, O.endedAfter m xs = false) ∧
  (∀ m xs, O.statusOf m xs = .ok ∨ O.statusOf m xs = .done)

/-- An LZW oracle that produces nothing and never ends or errs. -/
def trivialOracle : LzwOracle :=
  { produced := fun _ _ => 0, statusOf := fun _ _ => .ok, endedAfter := fun _ _ => false }

/-- An LZW oracle whose decoder reports an invalid code on any input. -/
def invalidCodeOracle : LzwOracle :=
  { produced := fun _ _ => 0, statusOf := fun _ _ => .invalidCode,
    endedAfter := fun _ _ => false }

/-- An LZW oracle whose decoder reports no progress on any input. -/
def noProgressOracle : LzwOracle :=
  { produced := fun _ _ => 0, statusOf := fun _ _ => .noProgress,
    endedAfter := fun _ _ => false }

/-- A minimal valid GIF89a stream: 1×1 screen, no global color table, one
    1×1 frame whose image data is a single two-byte LZW sub-block, then the
    block terminator and the trailer. -/
def tinyGif : List Nat :=
  [0x47, 0x49, 0x46, 0x38, 0x39, 0x61,
   1, 0, 1, 0, 0, 0, 0,
   0x2C, 0, 0, 0, 0, 1, 0, 1, 0, 0,
   2, 2, 0x44, 1, 0, 0x3B]

/-- Number of repetitions (`Repeat` in encoder.rs). -/
inductive Repeat
  | finite (n : Nat)
  | infinite
deriving DecidableEq

/-- Extension data (`ExtensionData` in encoder.rs). -/
inductive ExtensionData
  | control (flags : Nat) (delay : Nat) (trns : Nat)
  | repetitions (r : Repeat)
deriving DecidableEq

/-- `ExtensionData::new_control_ext` (encoder.rs lines 45-62). -/
def ExtensionData.new_control_ext (delay : Nat) (dispose : DisposalMethod)
    (needs_user_input : Bool) (trns : Option Nat) : ExtensionData :=
  let p : Nat × Nat :=
    match trns with
    | some t => (1, t % 256)
    | none => (0, 0)
  let flags := p.1 ||| ((if needs_user_input then 1 else 0) <<< 1) ||| (dispose.toU8 <<< 2)
  .control flags delay p.2

/-- Modelled from the spec: `WriteBytesExt::write_le` for `u16` writes the
    value little-endian (`traits.rs` is not under `src/`). -/
def u16le (v : Nat) : List Nat := [v % 256, v / 256 % 256]

/-- `BlockWriter` (encoder.rs lines 65-80): `w` is the byte stream already
    written to the underlying writer; `buf` models `self.buf[..self.bytes]`. -/
structure BlockWriter where
  w : List Nat
  buf : List Nat
deriving DecidableEq

/-- One `Write::write` call on a `BlockWriter` (encoder.rs lines 84-97):
    buffer `min(input, 255 - buffered)` bytes; when the buffer reaches 255
    bytes, emit `0xFF` followed by the buffer and reset.  Returns the
    writer and the number of bytes accepted. -/
def BlockWriter.write (bw : BlockWriter) (data : List Nat) : BlockWriter × Nat :=
  let to_copy := min data.length (255 - bw.buf.length)
  let buf' := bw.buf ++ data.take to_copy
  if buf'.length = 255 then (⟨bw.w ++ 255 :: buf', []⟩, to_copy)
  else (⟨bw.w, buf'⟩, to_copy)

/-- Fuelled `write_all` loop over a `BlockWriter`: each `write` accepts at
    least one byte while the buffer invariant `buffered ≤ 254` holds, so
    `data.length` rounds of fuel suffice. -/
def BlockWriter.writeAllF : Nat → BlockWriter → List Nat → BlockWriter
  | 0, bw, _ => bw
  | f + 1, bw, data =>
    if data.isEmpty then bw
    else
      let p := bw.write data
      BlockWriter.writeAllF f p.1 (data.drop p.2)

/-- `write_all` of a byte sequence through a `BlockWriter`. -/
def BlockWriter.writeAll (bw : BlockWriter) (data : List Nat) : BlockWriter :=
  BlockWriter.writeAllF data.length bw data

/-- `Drop for BlockWriter` (encoder.rs lines 106-123): emit the single-byte
    length followed by the partial buffer when it is non-empty.  Between
    `write` calls `buffered ≤ 254`, so `self.bytes as u8` is the length. -/
def BlockWriter.release (bw : BlockWriter) : List Nat :=
  if bw.buf.length = 0 then bw.w else bw.w ++ bw.buf.length :: bw.buf

/-- The bytes a fresh `BlockWriter` emits for a byte sequence `S`: write `S`
    through it, then release it. -/
def blockStream (s : List Nat) : List Nat :=
  (BlockWriter.writeAll ⟨[], []⟩ s).release

/-- The consecutive ≤255-byte chunks of a byte sequence, in order. -/
def chunksOf255 (s : List Nat) : List (List Nat) :=
  if h : s = [] then []
  else s.take 255 :: chunksOf255 (s.drop 255)
termination_by s.length
decreasing_by
  simp only [List.length_drop]
  have : s.length ≠ 0 := fun hh => h (List.length_eq_zero.mp hh)
  omega

/-- Length-prefixed encoding of a list of sub-blocks: each block is emitted
    as its length byte followed by its data. -/
def encodeBlocks (bs : List (List Nat)) : List Nat :=
  (bs.map (fun c => c.length :: c)).flatten

/-- Color table size converted to flag bits (`flag_size`, encoder.rs lines
    313-325).  The source's overlapping `7..=16` arm is dead for 7 and 8
    because the first matching arm wins, so this if-chain is its exact
    semantics. -/
def flag_size (size : Nat) : Nat :=
  if size ≤ 2 then 0
  else if size ≤ 4 then 1
  else if size ≤ 8 then 2
  else if size ≤ 16 then 3
  else if size ≤ 32 then 4
  else if size ≤ 64 then 5
  else if size ≤ 128 then 6
  else 7

/-- `Encoder` (encoder.rs lines 126-131); `w` accumulates the bytes written
    to the underlying writer, which is modelled as infallible. -/
structure Encoder where
  w : List Nat
  global_palette : Bool
  width : Nat
  height : Nat
deriving DecidableEq

/-- `Encoder::write_screen_desc` (encoder.rs lines 289-296). -/
def Encoder.write_screen_desc (e : Encoder) (flags : Nat) : Encoder :=
  { e with w := e.w ++ [0x47, 0x49, 0x46, 0x38, 0x39, 0x61] ++ u16le e.width ++
                u16le e.height ++ [flags, 0, 0] }

/-- `Encoder::write_color_table` (encoder.rs lines 223-235). -/
def Encoder.write_color_table (e : Encoder) (table : List Nat) : Except String Encoder :=
  let num_colors := table.length / 3
  if 256 < num_colors then .error "Too many colors"
  else
    let size := flag_size num_colors
    .ok { e with w := e.w ++ table.take (num_colors * 3) ++
                 (List.replicate ((2 <<< size) - num_colors) ([0, 0, 0] : List Nat)).flatten }

/-- `Encoder::write_global_palette` (encoder.rs lines 148-161). -/
def Encoder.write_global_palette (e : Encoder) (palette : List Nat) :
    Except String Encoder :=
  let e1 := { e with global_palette := true }
  let num_colors := palette.length / 3
  if 256 < num_colors then .error "Too many colors"
  else
    let flags := 0x80 ||| flag_size num_colors ||| (flag_size num_colors <<< 4)
    (e1.write_screen_desc flags).write_color_table palette

/-- `Encoder::new` (encoder.rs lines 138-145). -/
def Encoder.new (width height : Nat) (global_palette : List Nat) :
    Except String Encoder :=
  Encoder.write_global_palette ⟨[], false, width, height⟩ global_palette

/-- `Encoder::write_extension` (encoder.rs lines 240-269):
    `Repetitions(Finite(0))` writes nothing; otherwise the extension
    introducer, the payload, and a zero terminator are written. -/
def Encoder.write_extension (e : Encoder) (extension : ExtensionData) : Encoder :=
  match extension with
  | .repetitions (.finite 0) => e
  | _ =>
    let payload :=
      match extension with
      | .control flags delay trns => [0xF9, 4, flags] ++ u16le delay ++ [trns]
      | .repetitions rep =>
        [0xFF, 11] ++ [78, 69, 84, 83, 67, 65, 80, 69, 50, 46, 48] ++ [3, 1] ++
          (match rep with
           | .finite no => u16le no
           | .infinite => u16le 0)
    { e with w := e.w ++ [0x21] ++ payload ++ [0] }

/-- `Encoder::write_image_block` (encoder.rs lines 209-221): emits the
    minimal code size, the LZW-compressed data framed by a `BlockWriter`,
    and a zero-length block terminator.  The external `weezl` encoder is
    abstracted by `lzw_enc` (modelled from the spec: it consumes all input
    and yields the compressed byte stream for the given code size). -/
def write_image_block (lzw_enc : Nat → List Nat → List Nat) (data : List Nat) :
    List Nat :=
  -- the source's `match .. { 1 => 2, n => n }`: a minimal code size of 1 is
  -- clamped to 2, as per the GIF specification
  let v := flag_size (data.foldr max 0 + 1) + 1
  let min_code_size := if v = 1 then 2 else v
  min_code_size :: (blockStream (lzw_enc min_code_size data) ++ [0])

/-- `Encoder::write_frame` (encoder.rs lines 166-207). -/
def Encoder.write_frame (e : Encoder) (lzw_enc : Nat → List Nat → List Nat)
    (frame : Frame) : Except String Encoder :=
  let e1 := e.write_extension (ExtensionData.new_control_ext frame.delay frame.dispose
              frame.needs_user_input frame.transparent)
  let e2 := { e1 with w := e1.w ++ [0x2C] ++ u16le frame.left ++ u16le frame.top ++
                      u16le frame.width ++ u16le frame.height }
  let flags := if frame.interlaced then 0x40 else 0
  let after : Except String Encoder :=
    match frame.palette with
    | some palette =>
      let num_colors := palette.length / 3
      if 256 < num_colors then .error "Too many colors"
      else
        let flags1 := flags ||| 0x80 ||| flag_size num_colors
        Encoder.write_color_table { e2 with w := e2.w ++ [flags1] } palette
    | none =>
      if e2.global_palette = false then
        .error "The GIF format requires a color palette but none was given."
      else .ok { e2 with w := e2.w ++ [flags] }
  match after with
  | .error msg => .error msg
  | .ok e3 => .ok { e3 with w := e3.w ++ write_image_block lzw_enc frame.buffer }

/-- Whether a step result is a `Format` decoding failure. -/
def StepRes.isFormatFail : StepRes → Bool
  | .fail _ (.format _) => true
  | _ => false

/-- A decoder poised at the trailer state. -/
def trailerDecoder : StreamingDecoder :=
  { StreamingDecoder.with_options false false false false with state := .trailer }

/-- A decoder poised at the image-flags byte of a 2×1 frame on a 1×1
    screen, with consistency checking enabled. -/
def oobFrameDecoder : StreamingDecoder :=
  { StreamingDecoder.with_options false false true false with
    state := .byte .imageFlags, width := 1, height := 1,
    current := some { Frame.default with width := 2, height := 1 } }

/-- A decoder poised inside LZW frame data with a live sub-decoder that
    requires an end code. -/
def lzwErrDecoder : StreamingDecoder :=
  { StreamingDecoder.with_options true false false false with
    state := .decodeSubBlock 2,
    lzw_reader := { min_code_size := 2, has_decoder := true, fed := [],
                    check_for_end_code := true } }

/-- A decoder that answers every non-empty input with a `Format` error:
    once one of the input-independent format checks has failed, the decoder
    value keeps failing it no matter which bytes are offered next. -/
def stickyFormat (O : LzwOracle) (w : OutputBuffer) (d : StreamingDecoder) : Prop :=
  ∀ b rest, ∃ d₂ msg, d.next_state O w (b :: rest) = .fail d₂ (.format msg)

/-- A decoder expecting a block terminator, one `Nothing` step away from a
    `BlockStart` dispatch on an unknown block tag. -/
def blockEndDecoder : StreamingDecoder :=
  { StreamingDecoder.with_options false false false false with state := .blockEnd 0 }

theorem urank_le_two (s : State) : urank s ≤ 2 := by
  cases s <;> simp [urank]

theorem decode_bytes_ok_shape (r : LzwReader) (O : LzwOracle) (data : List Nat)
    (w : OutputBuffer) (r' : LzwReader) (c p : Nat)
    (h : r.decode_bytes O data w = .ok (r', c, p)) :
    c = data.length ∧ r' = { r with fed := r.fed ++ data } := by
  unfold LzwReader.decode_bytes at h
  dsimp only [] at h
  (repeat' split at h) <;> simp_all

theorem next_state_ok_facts (O : LzwOracle) (w : OutputBuffer)
    (d d' : StreamingDecoder) (buf : List Nat) (n : Nat) (ev : Decoded)
    (h : d.next_state O w buf = .ok d' n ev) :
    n ≤ buf.length ∧
    (ev = .nothing →
      (1 ≤ n ∧ urank d'.state ≤ urank d.state) ∨
      (n = 0 ∧ urank d'.state < urank d.state)) := by
  obtain ⟨st, lzw, sfd, cfc, aub, ver, wd, ht, gct, bc, ex, cur⟩ := d
  cases buf with
  | nil => exact absurd h (by simp [StreamingDecoder.next_state])
  | cons b rest =>
    cases st <;>
      simp only [StreamingDecoder.next_state] at h <;>
      (repeat' split at h) <;>
      (try (exfalso; exact StepRes.noConfusion h)) <;>
      (rw [StepRes.ok.injEq] at h
       obtain ⟨hd, hn, hev⟩ := h
       subst hd hn hev
       refine ⟨?_, fun hnn => ?_⟩
       · simp only [List.length_cons, List.length_take]
         first
           | omega
           | (rename_i heq
              rw [(decode_bytes_ok_shape _ _ _ _ _ _ _ heq).1]
              simp only [List.length_take, List.length_cons]
              omega)
       · cases hnn <;> (simp only [urank, List.length_cons, List.length_take]; (first | omega | simp)))

theorem updateF_fuel_eq (O : LzwOracle) (w : OutputBuffer) :
    ∀ f₁ f₂ d buf, 2 * buf.length + urank d.state < f₁ →
      2 * buf.length + urank d.state < f₂ →
      updateF O w f₁ d buf = updateF O w f₂ d buf := by
  intro f₁
  induction f₁ using Nat.strong_induction_on with
  | _ f₁ ih =>
    intro f₂ d buf h1 h2
    match f₁, f₂ with
    | f₁ + 1, f₂ + 1 =>
      cases buf with
      | nil => rfl
      | cons b rest =>
        simp only [updateF]
        cases hns : d.next_state O w (b :: rest) with
        | ok d' n ev =>
          cases ev with
          | nothing =>
            have hf := next_state_ok_facts O w d d' _ n .nothing hns
            have hprog := hf.2 rfl
            have hle := hf.1
            have hur : urank d'.state ≤ 2 := urank_le_two _
            have hrec : updateF O w f₁ d' (List.drop n (b :: rest)) =
                updateF O w f₂ d' (List.drop n (b :: rest)) := by
              apply ih f₁ (Nat.lt_succ_self _) f₂ d' (List.drop n (b :: rest)) <;>
                (simp only [List.length_drop, List.length_cons] at *; omega)
            dsimp only
            rw [hrec]
          | _ => rfl
        | fail d' e => rfl
        | crashed => rfl

theorem update_nil (O : LzwOracle) (w : OutputBuffer) (d : StreamingDecoder) :
    d.update O w [] = .ok d 0 .nothing := rfl

theorem update_cons (O : LzwOracle) (w : OutputBuffer) (d : StreamingDecoder)
    (b : Nat) (rest : List Nat) :
    d.update O w (b :: rest) =
      match d.next_state O w (b :: rest) with
      | .ok d' n .nothing =>
        (match d'.update O w (List.drop n (b :: rest)) with
         | .ok d'' m ev => .ok d'' (n + m) ev
         | r => r)
      | r => r := by
  show updateF O w (2 * (b :: rest).length + 3) d (b :: rest) = _
  rw [show 2 * (b :: rest).length + 3 = (2 * (b :: rest).length + 2) + 1 from rfl]
  simp only [updateF]
  cases hns : d.next_state O w (b :: rest) with
  | ok d' n ev =>
    cases ev with
    | nothing =>
      have hf := next_state_ok_facts O w d d' _ n .nothing hns
      have hprog := hf.2 rfl
      have hle := hf.1
      have hur : urank d'.state ≤ 2 := urank_le_two _
      have hur2 : urank d.state ≤ 2 := urank_le_two _
      have hrec : updateF O w (2 * (b :: rest).length + 2) d' (List.drop n (b :: rest)) =
          d'.update O w (List.drop n (b :: rest)) := by
        show _ = updateF O w (2 * (List.drop n (b :: rest)).length + 3) d' _
        apply updateF_fuel_eq <;>
          (simp only [List.length_drop, List.length_cons] at *; omega)
      dsimp only
      rw [hrec]
    | _ => rfl
  | fail d' e => rfl
  | crashed => rfl

/-- C9: `Encoder::write_extension` with `Repetitions(Finite(0))` writes no
    bytes to the underlying writer and succeeds: the encoder is returned
    unchanged. -/
theorem write_extension_finite_zero (e : Encoder) :
    e.write_extension (.repetitions (.finite 0)) = e := rfl

theorem clog2_eq_of_bounds (k lo hi s : Nat) (hk : 1 ≤ k) (hlo : 2 ^ (k - 1) = lo)
    (hhi : 2 ^ k = hi) (h1 : lo < s) (h2 : s ≤ hi) : Nat.clog 2 s = k := by
  subst hlo hhi
  have hle : Nat.clog 2 s ≤ k := (Nat.le_pow_iff_clog_le one_lt_two).mp h2
  have hlt : k - 1 < Nat.clog 2 s := (Nat.pow_lt_iff_lt_clog one_lt_two).mp h1
  omega

theorem min_code_size_formula (m : Nat) (hm : m ≤ 255) :
    (if flag_size (m + 1) + 1 = 1 then 2 else flag_size (m + 1) + 1) =
      max 2 (Nat.clog 2 (m + 1)) := by
  by_cases c2 : m + 1 ≤ 2
  · have hc : Nat.clog 2 (m + 1) ≤ 1 := by
      refine (Nat.le_pow_iff_clog_le one_lt_two).mp ?_
      rw [pow_one]; omega
    unfold flag_size
    split_ifs <;> omega
  by_cases c4 : m + 1 ≤ 4
  · have hc := clog2_eq_of_bounds 2 2 4 (m + 1) (by omega) (by norm_num) (by norm_num)
      (by omega) (by omega)
    unfold flag_size
    split_ifs <;> omega
  by_cases c8 : m + 1 ≤ 8
  · have hc := clog2_eq_of_bounds 3 4 8 (m + 1) (by omega) (by norm_num) (by norm_num)
      (by omega) (by omega)
    unfold flag_size
    split_ifs <;> omega
  by_cases c16 : m + 1 ≤ 16
  · have hc := clog2_eq_of_bounds 4 8 16 (m + 1) (by omega) (by norm_num) (by norm_num)
      (by omega) (by omega)
    unfold flag_size
    split_ifs <;> omega
  by_cases c32 : m + 1 ≤ 32
  · have hc := clog2_eq_of_bounds 5 16 32 (m + 1) (by omega) (by norm_num) (by norm_num)
      (by omega) (by omega)
    unfold flag_size
    split_ifs <;> omega
  by_cases c64 : m + 1 ≤ 64
  · have hc := clog2_eq_of_bounds 6 32 64 (m + 1) (by omega) (by norm_num) (by norm_num)
      (by omega) (by omega)
    unfold flag_size
    split_ifs <;> omega
  by_cases c128 : m + 1 ≤ 128
  · have hc := clog2_eq_of_bounds 7 64 128 (m + 1) (by omega) (by norm_num) (by norm_num)
      (by omega) (by omega)
    unfold flag_size
    split_ifs <;> omega
  · have hc := clog2_eq_of_bounds 8 128 256 (m + 1) (by omega) (by norm_num) (by norm_num)
      (by omega) (by omega)
    unfold flag_size
    split_ifs <;> omega

/-- C4 (counterexample): for the pixel buffer `[2]` (maximum palette index
    2), the emitted min-code-size byte is 2, not the claimed
    `max(2, ceil(log2(max_index+1))+1) = 3`. -/
theorem min_code_size_claim_counterexample :
    (write_image_block (fun _ _ => []) [2]).head? = some 2 ∧
    max 2 (Nat.clog 2 ([2].foldr max 0 + 1) + 1) = 3 ∧
    (write_image_block (fun _ _ => []) [2]).head? ≠
      some (max 2 (Nat.clog 2 ([2].foldr max 0 + 1) + 1)) := by
  have hf : ([2] : List Nat).foldr max 0 + 1 = 3 := rfl
  have hc : Nat.clog 2 3 = 2 := by simp [Nat.clog]
  have h2 : (write_image_block (fun _ _ => []) [2]).head? = some 2 := rfl
  rw [hf, hc]
  refine ⟨h2, by norm_num, ?_⟩
  rw [h2]
  norm_num

/-- C4 (amended): for every frame pixel buffer of bytes, the min-code-size
    byte emitted by `write_image_block` immediately before the LZW
    sub-blocks equals `max(2, ceil(log2(max_index+1)))`. -/
theorem write_image_block_min_code_size (lzw_enc : Nat → List Nat → List Nat)
    (data : List Nat) (h : ∀ x ∈ data, x < 256) :
    (write_image_block lzw_enc data).head? =
      some (max 2 (Nat.clog 2 (data.foldr max 0 + 1))) := by
  have hm : data.foldr max 0 ≤ 255 := by
    induction data with
    | nil => simp
    | cons x xs ih =>
      have hx := h x (by simp)
      have hxs : ∀ y ∈ xs, y < 256 := fun y hy => h y (by simp [hy])
      have := ih hxs
      simp only [List.foldr_cons]
      omega
  simp only [write_image_block, List.head?_cons]
  exact congrArg some (min_code_size_formula (data.foldr max 0) hm)

theorem write_image_block_min_code_size_witness :
    (∀ x ∈ [0, 1, 2], x < 256) ∧
    (write_image_block (fun _ _ => []) [0, 1, 2]).head? =
      some (max 2 (Nat.clog 2 ([0, 1, 2].foldr max 0 + 1))) :=
  ⟨by decide, write_image_block_min_code_size (fun _ _ => []) [0, 1, 2] (by decide)⟩

/-- C10 (counterexample): for a palette of 257 colors (771 bytes),
    `Encoder::new` fails with "Too many colors" and writes no logical screen
    descriptor at all, so the claim does not hold for every palette slice. -/
theorem encoder_new_counterexample :
    Encoder.new 1 1 (List.replicate 771 0) = .error "Too many colors" := by
  unfold Encoder.new Encoder.write_global_palette
  rw [List.length_replicate]
  norm_num

/-- C10 (amended): for every width, height and palette of at most 256
    colors, `Encoder::new` succeeds, records that a global palette exists,
    and writes a logical screen descriptor whose packed-flags byte (offset
    10) has bit 7 set; consequently `write_frame`'s "requires a color
    palette" error branch is unreachable for frames without a local
    palette. -/
theorem encoder_new_global_palette (width height : Nat) (palette : List Nat)
    (h : palette.length / 3 ≤ 256) :
    ∃ e, Encoder.new width height palette = .ok e ∧
      e.global_palette = true ∧
      (∃ flags, e.w[10]? = some flags ∧ flags.testBit 7 = true) ∧
      (∀ lzw_enc frame, Frame.palette frame = none →
        ∃ e', e.write_frame lzw_enc frame = .ok e') := by
  unfold Encoder.new Encoder.write_global_palette
  rw [if_neg (by omega)]
  unfold Encoder.write_color_table
  rw [if_neg (by omega)]
  refine ⟨_, rfl, rfl, ?_, ?_⟩
  · refine ⟨0x80 ||| flag_size (palette.length / 3) |||
      (flag_size (palette.length / 3) <<< 4), ?_, ?_⟩
    · simp [Encoder.write_screen_desc, u16le, List.cons_append, List.nil_append,
        List.append_assoc]
    · simp only [Nat.testBit_or]
      have h7 : Nat.testBit 0x80 7 = true := by decide
      simp [h7]
  · intro lzw_enc frame hpal
    unfold Encoder.write_frame
    rw [hpal]
    simp only []
    exact ⟨_, rfl⟩

theorem encoder_new_global_palette_witness :
    ([0, 0, 0, 255, 255, 255] : List Nat).length / 3 ≤ 256 ∧
    ∃ e, Encoder.new 1 1 [0, 0, 0, 255, 255, 255] = .ok e ∧
      e.global_palette = true ∧
      (∃ flags, e.w[10]? = some flags ∧ flags.testBit 7 = true) ∧
      (∀ lzw_enc frame, Frame.palette frame = none →
        ∃ e', e.write_frame lzw_enc frame = .ok e') :=
  ⟨by decide, encoder_new_global_palette 1 1 [0, 0, 0, 255, 255, 255] (by decide)⟩

/-- C8: the `Trailer` state is terminal: an `update` call in it consumes
    nothing, leaves the decoder unchanged, and decodes `Trailer` once per
    call (`Nothing` on empty input) — never any other event kind, so
    `Trailer` is the last event of any decode. -/
theorem trailer_state_terminal (O : LzwOracle) (w : OutputBuffer)
    (d : StreamingDecoder) (buf : List Nat) (h : d.state = .trailer) :
    d.update O w buf = .ok d 0 (if buf.isEmpty then Decoded.nothing else Decoded.trailer) := by
  cases buf with
  | nil => simpa using update_nil O w d
  | cons b rest =>
    rw [update_cons]
    simp only [StreamingDecoder.next_state, h, List.isEmpty_cons]
    rfl

theorem trailer_state_terminal_witness :
    trailerDecoder.state = .trailer ∧
    trailerDecoder.update trivialOracle .vec [7] =
      .ok trailerDecoder 0
        (if ([7] : List Nat).isEmpty then Decoded.nothing else Decoded.trailer) :=
  ⟨rfl, trailer_state_terminal trivialOracle .vec trailerDecoder [7] rfl⟩

/-- C2 (counterexample): when the LZW sub-decoder reports an invalid code,
    `update` returns an Io error (`ErrorKind::InvalidData`), not a Format
    error as the claim states. -/
theorem lzw_error_counterexample :
    (lzwErrDecoder.update invalidCodeOracle (.slice 8) [5, 0]).isFormatFail = false ∧
    lzwErrDecoder.update invalidCodeOracle (.slice 8) [5, 0] =
      .fail lzwErrDecoder (.ioError .invalidData "invalid code in LZW stream") := by
  decide

/-- C2 (amended): whenever the LZW sub-decoder reports an invalid code, or
    reports `NoProgress` while `check_for_end_code` is enabled, `update`
    returns an Io error of kind `InvalidData` (the `io::Error` produced in
    `LzwReader::decode_bytes` passes through `From<io::Error>` into
    `DecodingError::Io`), not a Format error. -/
theorem lzw_error_is_io (O : LzwOracle) (len : Nat) (d : StreamingDecoder)
    (left : Nat) (b : Nat) (rest : List Nat)
    (hst : d.state = .decodeSubBlock left) (hleft : 0 < left)
    (hdec : d.lzw_reader.has_decoder = true)
    (hend : O.endedAfter d.lzw_reader.min_code_size d.lzw_reader.fed = false)
    (hstat : O.statusOf d.lzw_reader.min_code_size
        (d.lzw_reader.fed ++ (b :: rest).take (min left (b :: rest).length)) =
          .invalidCode ∨
      (O.statusOf d.lzw_reader.min_code_size
        (d.lzw_reader.fed ++ (b :: rest).take (min left (b :: rest).length)) =
          .noProgress ∧ d.lzw_reader.check_for_end_code = true)) :
    ∃ msg, d.update O (.slice len) (b :: rest) =
      .fail d (.ioError .invalidData msg) := by
  rw [update_cons]
  simp only [StreamingDecoder.next_state, hst]
  rw [if_pos hleft]
  have hne : d.lzw_reader.has_ended O = false := by
    unfold LzwReader.has_ended
    rw [hdec, if_pos rfl]
    exact hend
  rw [hne]
  simp only [Bool.false_or]
  rw [if_neg (by simp)]
  unfold LzwReader.decode_bytes
  rw [hdec]
  simp only [Bool.true_eq_false, if_neg]
  rcases hstat with hstat | ⟨hstat, hcheck⟩
  · rw [hstat]
    exact ⟨_, rfl⟩
  · rw [hstat, hcheck]
    exact ⟨_, rfl⟩

theorem encodeBlocks_cons (c : List Nat) (cs : List (List Nat)) :
    encodeBlocks (c :: cs) = (c.length :: c) ++ encodeBlocks cs := by
  simp [encodeBlocks]

theorem release_chunks (bw : BlockWriter) (h : bw.buf.length ≤ 254) :
    bw.release = bw.w ++ encodeBlocks (chunksOf255 bw.buf) := by
  unfold BlockWriter.release
  by_cases hb : bw.buf = []
  · unfold chunksOf255
    rw [dif_pos hb]
    simp [hb, encodeBlocks]
  · unfold chunksOf255
    rw [dif_neg hb]
    have ht : bw.buf.take 255 = bw.buf := List.take_of_length_le (by omega)
    have hd : bw.buf.drop 255 = [] := List.drop_eq_nil_of_le (by omega)
    rw [ht, hd]
    unfold chunksOf255
    rw [dif_pos rfl, encodeBlocks_cons]
    have : bw.buf.length ≠ 0 := fun hh => hb (List.length_eq_zero.mp hh)
    rw [if_neg this]
    simp [encodeBlocks]

theorem writeAllF_release : ∀ (f : Nat) (data : List Nat) (bw : BlockWriter),
    data.length ≤ f → bw.buf.length ≤ 254 →
    (BlockWriter.writeAllF f bw data).release =
      bw.w ++ encodeBlocks (chunksOf255 (bw.buf ++ data)) := by
  intro f
  induction f with
  | zero =>
    intro data bw hf hb
    have hd : data = [] := List.length_eq_zero.mp (by omega)
    subst hd
    simp only [BlockWriter.writeAllF]
    rw [release_chunks bw hb, List.append_nil]
  | succ f ih =>
    intro data bw hf hb
    by_cases hd : data = []
    · subst hd
      simp only [BlockWriter.writeAllF, List.isEmpty_nil, if_true]
      rw [release_chunks bw hb, List.append_nil]
    · have hdlen : 1 ≤ data.length := by
        have : data.length ≠ 0 := fun hh => hd (List.length_eq_zero.mp hh)
        omega
      simp only [BlockWriter.writeAllF]
      rw [if_neg (by simpa [List.isEmpty_iff] using hd)]
      unfold BlockWriter.write
      by_cases hfull : (bw.buf ++ data.take (min data.length (255 - bw.buf.length))).length = 255
      · rw [if_pos hfull]
        dsimp only
        have hk1 : 1 ≤ min data.length (255 - bw.buf.length) := by omega
        have hkd : min data.length (255 - bw.buf.length) ≤ data.length := min_le_left _ _
        rw [ih (data.drop (min data.length (255 - bw.buf.length)))
            ⟨bw.w ++ 255 :: (bw.buf ++ data.take (min data.length (255 - bw.buf.length))), []⟩
            (by rw [List.length_drop]; omega) (by simp)]
        dsimp only
        have hsplit : bw.buf ++ data =
            (bw.buf ++ data.take (min data.length (255 - bw.buf.length))) ++
              data.drop (min data.length (255 - bw.buf.length)) := by
          rw [List.append_assoc, List.take_append_drop]
        rw [hsplit]
        have hne : (bw.buf ++ data.take (min data.length (255 - bw.buf.length))) ++
            data.drop (min data.length (255 - bw.buf.length)) ≠ [] := by
          intro hh
          have hlen := congrArg List.length hh
          rw [List.length_append, hfull] at hlen
          simp at hlen
        have htake : List.take 255 ((bw.buf ++ data.take (min data.length (255 - bw.buf.length))) ++
            data.drop (min data.length (255 - bw.buf.length))) =
            bw.buf ++ data.take (min data.length (255 - bw.buf.length)) := by
          rw [List.take_append_eq_append_take, List.take_of_length_le (le_of_eq hfull), hfull]
          simp
        have hdrop : List.drop 255 ((bw.buf ++ data.take (min data.length (255 - bw.buf.length))) ++
            data.drop (min data.length (255 - bw.buf.length))) =
            data.drop (min data.length (255 - bw.buf.length)) := by
          rw [List.drop_append_eq_append_drop, List.drop_eq_nil_of_le (le_of_eq hfull), hfull]
          simp
        have hchunk : chunksOf255 ((bw.buf ++ data.take (min data.length (255 - bw.buf.length))) ++
            data.drop (min data.length (255 - bw.buf.length))) =
            (bw.buf ++ data.take (min data.length (255 - bw.buf.length))) ::
              chunksOf255 (data.drop (min data.length (255 - bw.buf.length))) := by
          conv_lhs => rw [chunksOf255]
          rw [dif_neg hne, htake, hdrop]
        rw [hchunk, encodeBlocks_cons, hfull]
        simp [List.append_assoc]
      · rw [if_neg hfull]
        dsimp only
        have hklen : (bw.buf ++ data.take (min data.length (255 - bw.buf.length))).length ≤ 255 := by
          simp only [List.length_append, List.length_take]
          omega
        have hkeq : min data.length (255 - bw.buf.length) = data.length := by
          simp only [List.length_append, List.length_take] at hfull hklen
          omega
        rw [hkeq, List.take_length, List.drop_length]
        have hbuf2 : (bw.buf ++ data).length ≤ 254 := by
          simp only [List.length_append, List.length_take, hkeq] at hfull hklen
          simp only [List.length_append]
          omega
        have := ih [] ⟨bw.w, bw.buf ++ data⟩ (by simp) hbuf2
        rw [this]
        simp

theorem chunksOf255_flatten (s : List Nat) : (chunksOf255 s).flatten = s := by
  induction s using chunksOf255.induct with
  | case1 => rw [chunksOf255]; simp
  | case2 s hs ih =>
    rw [chunksOf255]
    rw [dif_neg hs]
    simp only [List.flatten_cons, ih]
    exact List.take_append_drop _ _

theorem chunksOf255_blocks (s : List Nat) :
    ∀ b ∈ chunksOf255 s, 1 ≤ b.length ∧ b.length ≤ 255 := by
  induction s using chunksOf255.induct with
  | case1 => rw [chunksOf255]; simp
  | case2 s hs ih =>
    rw [chunksOf255]
    rw [dif_neg hs]
    intro b hsb
    rcases List.mem_cons.mp hsb with hb | hb
    · subst hb
      have : s.length ≠ 0 := fun hh => hs (List.length_eq_zero.mp hh)
      simp only [List.length_take]
      omega
    · exact ih b hb

/-- C5: writing any byte sequence S through a fresh `BlockWriter` and then
    releasing it emits only sub-blocks whose length byte is in 1..=255
    followed by exactly that many data bytes (never a zero-length
    sub-block), and the data portions concatenate back to exactly S. -/
theorem block_writer_round_trip (s : List Nat) :
    ∃ blocks, blockStream s = encodeBlocks blocks ∧
      (∀ b ∈ blocks, 1 ≤ b.length ∧ b.length ≤ 255) ∧
      blocks.flatten = s := by
  refine ⟨chunksOf255 s, ?_, chunksOf255_blocks s, chunksOf255_flatten s⟩
  unfold blockStream BlockWriter.writeAll
  have := writeAllF_release s.length s ⟨[], []⟩ le_rfl (by simp)
  simpa using this

theorem optLt_checkedSub (a b c : Nat) :
    optLt (checkedSub a b) (some c) = true ↔ a < c + b := by
  unfold checkedSub
  split <;> simp [optLt] <;> omega

/-- C7: with `check_frame_consistency` enabled, the decoder step that reads
    the image-flags byte fails with a format error if and only if
    `frame.left + frame.width > screen width` or `frame.top + frame.height
    > screen height`; the `checked_sub` comparison also fails when the frame
    dimension alone exceeds the screen, so there is no wrap-around. -/
theorem image_flags_consistency (O : LzwOracle) (w : OutputBuffer)
    (d : StreamingDecoder) (fr : Frame) (b : Nat) (rest : List Nat)
    (hst : d.state = .byte .imageFlags) (hc : d.check_frame_consistency = true)
    (hcur : d.current = some fr) :
    (∃ d' msg, d.next_state O w (b :: rest) = .fail d' (.format msg)) ↔
      (d.width < fr.left + fr.width ∨ d.height < fr.top + fr.height) := by
  have hWiff := optLt_checkedSub d.width fr.width fr.left
  have hHiff := optLt_checkedSub d.height fr.height fr.top
  simp only [StreamingDecoder.next_state, hst, hcur, hc, Bool.true_and]
  cases hA : optLt (checkedSub d.width fr.width) (some fr.left) with
  | true =>
    simp only [Bool.true_or, if_pos]
    exact ⟨fun _ => Or.inl (hWiff.mp hA), fun _ => ⟨_, _, rfl⟩⟩
  | false =>
    cases hB : optLt (checkedSub d.height fr.height) (some fr.top) with
    | true =>
      simp only [Bool.or_true, if_pos]
      exact ⟨fun _ => Or.inr (hHiff.mp hB), fun _ => ⟨_, _, rfl⟩⟩
    | false =>
      simp only [Bool.or_self, Bool.false_eq_true, if_neg, if_false]
      constructor
      · intro ⟨d', msg, hd⟩
        exfalso
        split at hd <;> exact StepRes.noConfusion hd
      · intro hq
        exfalso
        rcases hq with hq | hq
        · rw [hWiff.mpr hq] at hA
          exact Bool.noConfusion hA
        · rw [hHiff.mpr hq] at hB
          exact Bool.noConfusion hB

theorem image_flags_consistency_witness :
    oobFrameDecoder.state = .byte .imageFlags ∧
    oobFrameDecoder.check_frame_consistency = true ∧
    oobFrameDecoder.current = some { Frame.default with width := 2, height := 1 } ∧
    ((∃ d' msg, oobFrameDecoder.next_state trivialOracle .vec [0, 9] =
        .fail d' (.format msg)) ↔
      (oobFrameDecoder.width <
          ({ Frame.default with width := 2, height := 1 } : Frame).left +
            ({ Frame.default with width := 2, height := 1 } : Frame).width ∨
        oobFrameDecoder.height <
          ({ Frame.default with width := 2, height := 1 } : Frame).top +
            ({ Frame.default with width := 2, height := 1 } : Frame).height)) :=
  ⟨rfl, rfl, rfl,
    image_flags_consistency trivialOracle .vec oobFrameDecoder
      { Frame.default with width := 2, height := 1 } 0 [9] rfl rfl rfl⟩

theorem update_magic_step (O : LzwOracle) (w : OutputBuffer)
    (d : StreamingDecoder) (i : Nat) (v : List Nat) (b : Nat) (rest : List Nat)
    (hst : d.state = .magic i v) (hi : i < 6) :
    d.update O w (b :: rest) =
      match ({ d with state := .magic (i + 1) (v.set i b) } : StreamingDecoder).update
          O w rest with
      | .ok d'' m ev => .ok d'' (1 + m) ev
      | r => r := by
  rw [update_cons]
  simp only [StreamingDecoder.next_state, hst, if_pos hi, List.drop_succ_cons,
    List.drop_zero]

/-- C6: the decoder accumulates the six-byte signature; if its first three
    bytes are not "GIF", `update` fails with the Format error "malformed GIF
    header" when the seventh byte is processed (e.g. for input
    "XIF89a\0..."); if the prefix is "GIF" but the suffix is neither "87a"
    nor "89a", it fails with "unsupported GIF version"; otherwise the suffix
    selects version V87a or V89a. -/
theorem magic_header_check (O : LzwOracle) (w : OutputBuffer)
    (cfec sfd cfc aub : Bool) (b0 b1 b2 b3 b4 b5 b6 : Nat) (rest : List Nat) :
    (¬ [b0, b1, b2] = [0x47, 0x49, 0x46] →
      ∃ d', (StreamingDecoder.with_options cfec sfd cfc aub).update O w
          ([b0, b1, b2, b3, b4, b5, b6] ++ rest) =
        .fail d' (.format "malformed GIF header")) ∧
    ([b0, b1, b2] = [0x47, 0x49, 0x46] → ¬ [b3, b4, b5] = [0x38, 0x37, 0x61] →
      ¬ [b3, b4, b5] = [0x38, 0x39, 0x61] →
      ∃ d', (StreamingDecoder.with_options cfec sfd cfc aub).update O w
          ([b0, b1, b2, b3, b4, b5, b6] ++ rest) =
        .fail d' (.format "unsupported GIF version")) ∧
    ([b0, b1, b2] = [0x47, 0x49, 0x46] → [b3, b4, b5] = [0x38, 0x37, 0x61] →
      (StreamingDecoder.with_options cfec sfd cfc aub).update O w
          [b0, b1, b2, b3, b4, b5, b6] =
        .ok { StreamingDecoder.with_options cfec sfd cfc aub with
              version := .v87a,
              state := .u16Byte1 .screenWidth b6 } 7 .nothing) ∧
    ([b0, b1, b2] = [0x47, 0x49, 0x46] → [b3, b4, b5] = [0x38, 0x39, 0x61] →
      (StreamingDecoder.with_options cfec sfd cfc aub).update O w
          [b0, b1, b2, b3, b4, b5, b6] =
        .ok { StreamingDecoder.with_options cfec sfd cfc aub with
              version := .v89a,
              state := .u16Byte1 .screenWidth b6 } 7 .nothing) := by
  refine ⟨?_, ?_, ?_, ?_⟩
  · intro hbad
    simp only [List.cons_append, List.nil_append]
    simp [update_cons, update_nil, StreamingDecoder.next_state,
      StreamingDecoder.with_options, hbad]
  · intro hgif h87 h89
    simp only [List.cons_append, List.nil_append]
    simp [update_cons, update_nil, StreamingDecoder.next_state,
      StreamingDecoder.with_options, hgif, h87, h89]
  · intro hgif hsuf
    simp [update_cons, update_nil, StreamingDecoder.next_state,
      StreamingDecoder.with_options, hgif, hsuf]
  · intro hgif hsuf
    simp [update_cons, update_nil, StreamingDecoder.next_state,
      StreamingDecoder.with_options, hgif, hsuf]

theorem magic_header_check_witness :
    (¬ [0x58, 0x49, 0x46] = [0x47, 0x49, 0x46]) ∧
    (∃ d', (StreamingDecoder.with_options false false false false).update
        trivialOracle .vec ([0x58, 0x49, 0x46, 0x38, 0x39, 0x61, 0] ++ [0]) =
      .fail d' (.format "malformed GIF header")) ∧
    ((StreamingDecoder.with_options false false false false).update trivialOracle .vec
        [0x47, 0x49, 0x46, 0x38, 0x37, 0x61, 1] =
      .ok { StreamingDecoder.with_options false false false false with
            version := .v87a, state := .u16Byte1 .screenWidth 1 } 7 .nothing) ∧
    ((StreamingDecoder.with_options false false false false).update trivialOracle .vec
        [0x47, 0x49, 0x46, 0x38, 0x39, 0x61, 1] =
      .ok { StreamingDecoder.with_options false false false false with
            version := .v89a, state := .u16Byte1 .screenWidth 1 } 7 .nothing) :=
  ⟨by decide,
   (magic_header_check trivialOracle .vec false false false false
      0x58 0x49 0x46 0x38 0x39 0x61 0 [0]).1 (by decide),
   (magic_header_check trivialOracle .vec false false false false
      0x47 0x49 0x46 0x38 0x37 0x61 1 []).2.2.1 rfl rfl,
   (magic_header_check trivialOracle .vec false false false false
      0x47 0x49 0x46 0x38 0x39 0x61 1 []).2.2.2 rfl rfl⟩

theorem lzw_error_is_io_witness :
    lzwErrDecoder.state = .decodeSubBlock 2 ∧ 0 < 2 ∧
    lzwErrDecoder.lzw_reader.has_decoder = true ∧
    invalidCodeOracle.endedAfter lzwErrDecoder.lzw_reader.min_code_size
      lzwErrDecoder.lzw_reader.fed = false ∧
    ∃ msg, lzwErrDecoder.update invalidCodeOracle (.slice 8) [5, 0] =
      .fail lzwErrDecoder (.ioError .invalidData msg) :=
  ⟨rfl, by decide, rfl, rfl,
    lzw_error_is_io invalidCodeOracle 8 lzwErrDecoder 2 5 [0] rfl (by decide) rfl rfl
      (Or.inl rfl)⟩

theorem nothing_step_not_extension (O : LzwOracle) (w : OutputBuffer)
    (d d' : StreamingDecoder) (buf : List Nat) (n : Nat)
    (h : d.next_state O w buf = .ok d' n .nothing) :
    ∀ id, d'.state ≠ .extensionBlock id := by
  obtain ⟨st, lzw, sfd, cfc, aub, ver, wd, ht, gct, bc, ex, cur⟩ := d
  cases buf with
  | nil => exact absurd h (by simp [StreamingDecoder.next_state])
  | cons b rest =>
    cases st <;>
      simp only [StreamingDecoder.next_state] at h <;>
      (repeat' split at h) <;>
      first
        | exact StepRes.noConfusion h
        | (rw [StepRes.ok.injEq] at h
           obtain ⟨hd, hn, hev⟩ := h
           first
             | exact Decoded.noConfusion hev
             | (subst hd; intro id; simp))

/-- An `update` call that returns a `Format` error after advancing the FSM
    state: from the `BlockEnd` state, the byte `5` is consumed by a
    `Nothing` transition into `BlockStart 5`, and the dispatch on the
    unknown block tag `5` then fails, so the failing call leaves the decoder
    in a state different from the one it started in. -/
theorem format_counterexample_step :
    blockEndDecoder.update trivialOracle .discard [5, 99] =
      .fail { blockEndDecoder with state := .blockStart 5 }
        (.format "unknown block type encountered") ∧
    ({ blockEndDecoder with state := .blockStart 5 } : StreamingDecoder).state ≠
      blockEndDecoder.state := by
  constructor
  · decide
  · decide

theorem next_state_format_fact (O : LzwOracle) (w : OutputBuffer)
    (d d₁ : StreamingDecoder) (msg : String) (b : Nat) (rest : List Nat)
    (h : d.next_state O w (b :: rest) = .fail d₁ (.format msg)) :
    d₁.state = d.state ∧
    (stickyFormat O w d₁ ∨
      (∃ id, d.state = .extensionBlock id ∧
        ∀ rest₂, ∃ d₂ msg₂, d₁.next_state O w (b :: rest₂) =
          .fail d₂ (.format msg₂))) := by
  obtain ⟨st, lzw, sfd, cfc, aub, ver, wd, ht, gct, bc, ex, cur⟩ := d
  cases st
  all_goals try (
    simp only [StreamingDecoder.next_state] at h
    (repeat' split at h) <;>
      first
        | exact StepRes.noConfusion h
        | (rw [StepRes.fail.injEq] at h; exact DecodingError.noConfusion h.2))
  case magic i version =>
    simp only [StreamingDecoder.next_state] at h
    by_cases hi : i < 6
    · rw [if_pos hi] at h; exact StepRes.noConfusion h
    · rw [if_neg hi] at h
      by_cases hg : version.take 3 = [0x47, 0x49, 0x46]
      · rw [if_pos hg] at h
        split at h
        · exact StepRes.noConfusion h
        · exact StepRes.noConfusion h
        · rename_i n1 n2
          rw [StepRes.fail.injEq] at h
          obtain ⟨hd, -⟩ := h
          refine ⟨by rw [← hd], Or.inl ?_⟩
          intro b₂ rest₂
          refine ⟨d₁, "unsupported GIF version", ?_⟩
          rw [← hd, StreamingDecoder.next_state.eq_def]
          dsimp only
          rw [if_neg hi, if_pos hg]
          split
          · rename_i heq; exact absurd heq n1
          · rename_i heq; exact absurd heq n2
          · rfl
      · rw [if_neg hg] at h
        rw [StepRes.fail.injEq] at h
        obtain ⟨hd, -⟩ := h
        subst hd
        refine ⟨rfl, Or.inl ?_⟩
        intro b₂ rest₂
        exact ⟨_, _, by
          rw [StreamingDecoder.next_state.eq_def]
          dsimp only
          rw [if_neg hi, if_neg hg]
          try rfl⟩
  case byte v =>
    cases v
    all_goals try (
      simp only [StreamingDecoder.next_state] at h
      (repeat' split at h) <;> exact StepRes.noConfusion h)
    case imageFlags =>
      simp only [StreamingDecoder.next_state] at h
      cases cur with
      | none => exact StepRes.noConfusion h
      | some fr =>
        (repeat' split at h) <;>
          first
            | exact StepRes.noConfusion h
            | (rename_i hguard
               rw [StepRes.fail.injEq] at h
               obtain ⟨hd, -⟩ := h
               subst hd
               refine ⟨rfl, Or.inl ?_⟩
               intro b₂ rest₂
               exact ⟨_, _, by
                 rw [StreamingDecoder.next_state.eq_def]
                 dsimp only
                 rw [if_pos (by simpa using hguard)]
                 try rfl⟩)
  case blockStart tag =>
    simp only [StreamingDecoder.next_state] at h
    split at h
    · exact StepRes.noConfusion h
    · exact StepRes.noConfusion h
    · exact StepRes.noConfusion h
    · rename_i heq
      split at h
      · exact StepRes.noConfusion h
      · rename_i haub
        rw [StepRes.fail.injEq] at h
        obtain ⟨hd, -⟩ := h
        subst hd
        refine ⟨rfl, Or.inl ?_⟩
        intro b₂ rest₂
        exact ⟨_, _, by
          rw [StreamingDecoder.next_state.eq_def]
          dsimp only
          rw [heq]
          dsimp only
          rw [if_neg haub]
          try rfl⟩
  case blockEnd terminator =>
    simp only [StreamingDecoder.next_state] at h
    by_cases ht0 : terminator = 0
    · rw [if_pos ht0] at h
      split at h <;> exact StepRes.noConfusion h
    · rw [if_neg ht0] at h
      rw [StepRes.fail.injEq] at h
      obtain ⟨hd, -⟩ := h
      subst hd
      refine ⟨rfl, Or.inl ?_⟩
      intro b₂ rest₂
      exact ⟨_, _, by
        rw [StreamingDecoder.next_state.eq_def]
        dsimp only
        rw [if_neg ht0]
        try rfl⟩
  case extensionBlock id =>
    simp only [StreamingDecoder.next_state] at h
    split at h
    · rename_i heq
      split at h
      · rename_i hb4
        rw [StepRes.fail.injEq] at h
        obtain ⟨hd, -⟩ := h
        subst hd
        refine ⟨rfl, Or.inr ⟨id, rfl, ?_⟩⟩
        intro rest₂
        exact ⟨_, _, by
          rw [StreamingDecoder.next_state.eq_def]
          dsimp only
          rw [heq]
          dsimp only
          rw [if_pos hb4]
          try rfl⟩
      · exact StepRes.noConfusion h
    · exact StepRes.noConfusion h
    · rename_i heq
      rw [StepRes.fail.injEq] at h
      obtain ⟨hd, -⟩ := h
      subst hd
      refine ⟨rfl, Or.inl ?_⟩
      intro b₂ rest₂
      exact ⟨_, _, by
        rw [StreamingDecoder.next_state.eq_def]
        dsimp only
        rw [heq]
        try rfl⟩
  case lzwInit mcs =>
    simp only [StreamingDecoder.next_state] at h
    split at h
    · rename_i hskip
      split at h
      · rename_i h11
        rw [StepRes.fail.injEq] at h
        obtain ⟨hd, -⟩ := h
        subst hd
        refine ⟨rfl, Or.inl ?_⟩
        intro b₂ rest₂
        exact ⟨_, _, by
          rw [StreamingDecoder.next_state.eq_def]
          dsimp only
          rw [if_pos hskip, if_pos h11]
          try rfl⟩
      · split at h <;> exact StepRes.noConfusion h
    · split at h <;> exact StepRes.noConfusion h

theorem update_format_classify (O : LzwOracle) (w : OutputBuffer) :
    ∀ N (d : StreamingDecoder) (buf : List Nat) (d₁ : StreamingDecoder)
      (msg : String),
      2 * buf.length + urank d.state ≤ N →
      d.update O w buf = .fail d₁ (.format msg) →
      stickyFormat O w d₁ ∨
        (∃ id b₀ rest₀, buf = b₀ :: rest₀ ∧ d.state = .extensionBlock id ∧
          ∀ rest₂, ∃ d₂ msg₂, d₁.next_state O w (b₀ :: rest₂) =
            .fail d₂ (.format msg₂)) := by
  intro N
  induction N using Nat.strong_induction_on with
  | _ N ih =>
    intro d buf d₁ msg hN h
    cases buf with
    | nil => rw [update_nil] at h; exact StepRes.noConfusion h
    | cons b rest =>
      rw [update_cons] at h
      cases hns : d.next_state O w (b :: rest) with
      | crashed => rw [hns] at h; exact StepRes.noConfusion h
      | fail d' e =>
        rw [hns] at h
        try dsimp only [] at h
        rw [StepRes.fail.injEq] at h
        obtain ⟨hd, he⟩ := h
        subst hd
        subst he
        obtain ⟨-, hclass⟩ := next_state_format_fact O w d d' msg b rest hns
        rcases hclass with hsticky | ⟨id, hid, hst⟩
        · exact Or.inl hsticky
        · exact Or.inr ⟨id, b, rest, rfl, hid, hst⟩
      | ok d' n ev =>
        rw [hns] at h
        cases ev
        case nothing =>
          dsimp only [] at h
          cases hu : d'.update O w (List.drop n (b :: rest)) with
          | crashed => rw [hu] at h; exact StepRes.noConfusion h
          | ok d'' m ev₂ => rw [hu] at h; exact StepRes.noConfusion h
          | fail d₁' e' =>
            rw [hu] at h
            try dsimp only [] at h
            rw [StepRes.fail.injEq] at h
            obtain ⟨hd, he⟩ := h
            subst hd
            subst he
            obtain ⟨hn, hprog⟩ :=
              next_state_ok_facts O w d d' (b :: rest) n .nothing hns
            have hmeas :
                2 * (List.drop n (b :: rest)).length + urank d'.state < N := by
              rcases hprog rfl with ⟨h1, h2⟩ | ⟨h1, h2⟩ <;>
                (simp only [List.length_drop, List.length_cons] at hN hn ⊢
                 omega)
            rcases ih _ hmeas d' (List.drop n (b :: rest)) d₁' msg le_rfl hu with
              hsticky | ⟨id, b₀, rest₀, hbuf, hid, hst⟩
            · exact Or.inl hsticky
            · exact absurd hid
                (nothing_step_not_extension O w d d' (b :: rest) n hns id)
        all_goals (try dsimp only [] at h; exact StepRes.noConfusion h)

/-- C3: a `Format` error is terminal — when `StreamingDecoder::update`
    returns a `Format` error, the erroring `next_state` call leaves
    `self.state` unchanged, and calling `update` again on the same input
    yields a `Format` error again (the same one, or a follow-on such as
    "unsupported GIF version" after "malformed GIF header"); decoding never
    resumes past a format error.  (The unconsumed-state clause of the claim
    holds only for the erroring step, not for the `update` call as a whole:
    `Nothing` transitions earlier in the same call do advance the state, see
    the counterexample.) -/
theorem format_error_halts (O : LzwOracle) (w : OutputBuffer)
    (d : StreamingDecoder) (buf : List Nat) (d₁ : StreamingDecoder)
    (msg : String)
    (h : d.update O w buf = .fail d₁ (.format msg)) :
    ∃ d₂ msg₂, d₁.update O w buf = .fail d₂ (.format msg₂) := by
  rcases update_format_classify O w (2 * buf.length + urank d.state) d buf d₁
      msg le_rfl h with
    hsticky | ⟨id, b₀, rest₀, hbuf, -, hstick⟩
  · cases buf with
    | nil => rw [update_nil] at h; exact StepRes.noConfusion h
    | cons b rest =>
      obtain ⟨d₂, msg₂, hf⟩ := hsticky b rest
      refine ⟨d₂, msg₂, ?_⟩
      rw [update_cons, hf]
  · subst hbuf
    obtain ⟨d₂, msg₂, hf⟩ := hstick rest₀
    refine ⟨d₂, msg₂, ?_⟩
    rw [update_cons, hf]

theorem format_error_halts_witness :
    ∃ d₂ msg₂, ({ blockEndDecoder with state := .blockStart 5 } :
        StreamingDecoder).update trivialOracle .discard [5, 99] =
      .fail d₂ (.format msg₂) :=
  format_error_halts trivialOracle .discard blockEndDecoder [5, 99]
    { blockEndDecoder with state := .blockStart 5 }
    "unknown block type encountered" (by decide)

theorem runBytes_append (O : LzwOracle) (w : OutputBuffer) :
    ∀ (xs ys : List Nat) (d : StreamingDecoder),
      runBytes O w d (xs ++ ys) =
        match runBytes O w d xs with
        | ⟨es, .running d'⟩ =>
          let r := runBytes O w d' ys
          ⟨es ++ r.es, r.out⟩
        | r => r := by
  intro xs
  induction xs with
  | nil => intro ys d; simp [runBytes]
  | cons b rest ih =>
    intro ys d
    rw [List.cons_append]
    show runBytes O w d (b :: (rest ++ ys)) = _
    rw [runBytes]
    cases hr : run1 O w d b with
    | cont d' es =>
      rw [runBytes, hr]
      dsimp only
      rw [ih ys d']
      cases hrr : runBytes O w d' rest with
      | mk es2 out2 =>
        cases out2 <;> simp [List.append_assoc]
    | halt es => rw [runBytes, hr]
    | failed e => rw [runBytes, hr]
    | crashed => rw [runBytes, hr]
    | stuck => rw [runBytes, hr]

theorem LzwReader.eta_fed (r : LzwReader) :
    { r with fed := r.fed ++ [] } = r := by
  cases r; simp

theorem decode_bytes_nil (r : LzwReader) (O : LzwOracle) (w : OutputBuffer)
    (r' : LzwReader) (c p : Nat)
    (h : r.decode_bytes O [] w = .ok (r', c, p)) :
    r' = r ∧ c = 0 ∧ p = 0 := by
  obtain ⟨hc, hr⟩ := decode_bytes_ok_shape r O [] w r' c p h
  refine ⟨by rw [hr]; exact LzwReader.eta_fed r, by simpa using hc, ?_⟩
  unfold LzwReader.decode_bytes at h
  dsimp only [] at h
  (repeat' split at h) <;> simp_all <;>
    exact (congrArg Prod.snd h).symm

theorem nothing_step_not_trailer (O : LzwOracle) (w : OutputBuffer)
    (d d' : StreamingDecoder) (buf : List Nat) (n : Nat)
    (h : d.next_state O w buf = .ok d' n .nothing) :
    d'.state ≠ .trailer := by
  obtain ⟨st, lzw, sfd, cfc, aub, ver, wd, ht, gct, bc, ex, cur⟩ := d
  cases buf with
  | nil => exact absurd h (by simp [StreamingDecoder.next_state])
  | cons b rest =>
    cases st <;>
      simp only [StreamingDecoder.next_state] at h <;>
      (repeat' split at h) <;>
      first
        | exact StepRes.noConfusion h
        | (rw [StepRes.ok.injEq] at h
           obtain ⟨hd, hn, hev⟩ := h
           first
             | exact Decoded.noConfusion hev
             | (subst hd; simp))

theorem next_state_skip_eq (O : LzwOracle) (w : OutputBuffer)
    (d d' : StreamingDecoder) (buf : List Nat) (n : Nat) (ev : Decoded)
    (h : d.next_state O w buf = .ok d' n ev) :
    d'.skip_frame_decoding = d.skip_frame_decoding := by
  obtain ⟨st, lzw, sfd, cfc, aub, ver, wd, ht, gct, bc, ex, cur⟩ := d
  cases buf with
  | nil => exact absurd h (by simp [StreamingDecoder.next_state])
  | cons b rest =>
    cases st <;>
      simp only [StreamingDecoder.next_state] at h <;>
      (repeat' split at h) <;>
      first
        | exact StepRes.noConfusion h
        | (rw [StepRes.ok.injEq] at h
           obtain ⟨hd, hn, hev⟩ := h
           subst hd
           simp)

theorem runBytes_globalPalette (O : LzwOracle) (w : OutputBuffer) :
    ∀ (k : Nat) (bs : List Nat) (lzw : LzwReader) (sfd cfc aub : Bool)
      (ver : Version) (wd ht : Nat) (gct bc : List Nat)
      (ex : ExtensionScratch) (cur : Option Frame) (left : Nat),
      k ≤ left → k ≤ bs.length →
      runBytes O w
          ⟨.globalPalette left, lzw, sfd, cfc, aub, ver, wd, ht, gct, bc, ex, cur⟩
          (bs.take k) =
        ⟨[], .running ⟨.globalPalette (left - k), lzw, sfd, cfc, aub, ver, wd,
          ht, gct ++ bs.take k, bc, ex, cur⟩⟩ := by
  intro k
  induction k with
  | zero => intro bs lzw sfd cfc aub ver wd ht gct bc ex cur left hkl hkb; simp [runBytes]
  | succ k ih =>
    intro bs lzw sfd cfc aub ver wd ht gct bc ex cur left hkl hkb
    cases bs with
    | nil => simp at hkb
    | cons b bs2 =>
      rw [List.take_succ_cons, runBytes]
      have hrun : run1 O w
          ⟨.globalPalette left, lzw, sfd, cfc, aub, ver, wd, ht, gct, bc, ex, cur⟩ b =
          .cont ⟨.globalPalette (left - 1), lzw, sfd, cfc, aub, ver, wd, ht,
            gct ++ [b], bc, ex, cur⟩ [] := by
        unfold run1
        dsimp only
        rw [if_pos (by omega)]
      rw [hrun]
      dsimp only
      rw [ih bs2 lzw sfd cfc aub ver wd ht (gct ++ [b]) bc ex cur (left - 1)
        (by omega) (by simpa using hkb)]
      simp [Nat.sub_sub, Nat.add_comm]

theorem runBytes_skipBlock (O : LzwOracle) (w : OutputBuffer) :
    ∀ (k : Nat) (bs : List Nat) (lzw : LzwReader) (sfd cfc aub : Bool)
      (ver : Version) (wd ht : Nat) (gct bc : List Nat)
      (ex : ExtensionScratch) (cur : Option Frame) (left : Nat),
      k ≤ left → k ≤ bs.length →
      runBytes O w
          ⟨.skipBlock left, lzw, sfd, cfc, aub, ver, wd, ht, gct, bc, ex, cur⟩
          (bs.take k) =
        ⟨[], .running ⟨.skipBlock (left - k), lzw, sfd, cfc, aub, ver, wd, ht,
          gct, bc, ⟨ex.id, ex.data ++ bs.take k, ex.is_block_end⟩, cur⟩⟩ := by
  intro k
  induction k with
  | zero =>
    intro bs lzw sfd cfc aub ver wd ht gct bc ex cur left hkl hkb
    simp [runBytes]
  | succ k ih =>
    intro bs lzw sfd cfc aub ver wd ht gct bc ex cur left hkl hkb
    cases bs with
    | nil => simp at hkb
    | cons b bs2 =>
      rw [List.take_succ_cons, runBytes]
      have hrun : run1 O w
          ⟨.skipBlock left, lzw, sfd, cfc, aub, ver, wd, ht, gct, bc, ex, cur⟩ b =
          .cont ⟨.skipBlock (left - 1), lzw, sfd, cfc, aub, ver, wd, ht, gct,
            bc, ⟨ex.id, ex.data ++ [b], ex.is_block_end⟩, cur⟩ [] := by
        unfold run1
        dsimp only
        rw [if_pos (by omega)]
      rw [hrun]
      dsimp only
      rw [ih bs2 lzw sfd cfc aub ver wd ht gct bc
        ⟨ex.id, ex.data ++ [b], ex.is_block_end⟩ cur (left - 1)
        (by omega) (by simpa using hkb)]
      simp [Nat.sub_sub, Nat.add_comm]

theorem runBytes_localPalette (O : LzwOracle) (w : OutputBuffer) :
    ∀ (k : Nat) (bs : List Nat) (lzw : LzwReader) (sfd cfc aub : Bool)
      (ver : Version) (wd ht : Nat) (gct bc : List Nat)
      (ex : ExtensionScratch) (fr : Frame) (pal : List Nat) (left : Nat),
      k ≤ left → k ≤ bs.length → fr.palette = some pal →
      pal.length + left ≤ fr.palette_cap →
      runBytes O w
          ⟨.localPalette left, lzw, sfd, cfc, aub, ver, wd, ht, gct, bc, ex,
            some fr⟩ (bs.take k) =
        ⟨[], .running ⟨.localPalette (left - k), lzw, sfd, cfc, aub, ver, wd,
          ht, gct, bc, ex, some { fr with palette := some (pal ++ bs.take k) }⟩⟩ := by
  intro k
  induction k with
  | zero =>
    intro bs lzw sfd cfc aub ver wd ht gct bc ex fr pal left hkl hkb hpal hcap
    simp [runBytes]
    cases fr
    simp_all
  | succ k ih =>
    intro bs lzw sfd cfc aub ver wd ht gct bc ex fr pal left hkl hkb hpal hcap
    cases bs with
    | nil => simp at hkb
    | cons b bs2 =>
      rw [List.take_succ_cons, runBytes]
      have hrun : run1 O w
          ⟨.localPalette left, lzw, sfd, cfc, aub, ver, wd, ht, gct, bc, ex,
            some fr⟩ b =
          .cont ⟨.localPalette (left - 1), lzw, sfd, cfc, aub, ver, wd, ht,
            gct, bc, ex, some { fr with palette := some (pal ++ [b]) }⟩ [] := by
        unfold run1
        dsimp only
        rw [if_pos (by omega), hpal]
        dsimp only
        rw [if_pos (by omega)]
      rw [hrun]
      dsimp only
      rw [ih bs2 lzw sfd cfc aub ver wd ht gct bc ex
        { fr with palette := some (pal ++ [b]) } (pal ++ [b]) (left - 1)
        (by omega) (by simpa using hkb) (by simp)
        (by simp only [List.length_append, List.length_cons, List.length_nil]; omega)]
      simp [Nat.sub_sub, Nat.add_comm]

theorem runBytes_copySubBlock (O : LzwOracle) (w : OutputBuffer)
    (hw : ∀ len, w = .slice len → 1 ≤ len) :
    ∀ (k : Nat) (bs : List Nat) (lzw : LzwReader) (sfd cfc aub : Bool)
      (ver : Version) (wd ht : Nat) (gct bc : List Nat)
      (ex : ExtensionScratch) (cur : Option Frame) (left : Nat),
      k ≤ left → k ≤ bs.length →
      runBytes O w
          ⟨.copySubBlock left, lzw, sfd, cfc, aub, ver, wd, ht, gct, bc, ex, cur⟩
          (bs.take k) =
        ⟨(if w = .discard then [] else List.replicate k .copiedByte),
          .running ⟨.copySubBlock (left - k), lzw, sfd, cfc, aub, ver, wd, ht,
            gct, bc, ex, cur⟩⟩ := by
  intro k
  induction k with
  | zero =>
    intro bs lzw sfd cfc aub ver wd ht gct bc ex cur left hkl hkb
    simp [runBytes]
  | succ k ih =>
    intro bs lzw sfd cfc aub ver wd ht gct bc ex cur left hkl hkb
    cases bs with
    | nil => simp at hkb
    | cons b bs2 =>
      rw [List.take_succ_cons, runBytes]
      have hrun : run1 O w
          ⟨.copySubBlock left, lzw, sfd, cfc, aub, ver, wd, ht, gct, bc, ex, cur⟩ b =
          .cont ⟨.copySubBlock (left - 1), lzw, sfd, cfc, aub, ver, wd, ht,
            gct, bc, ex, cur⟩
            (if w = .discard then [] else [.copiedByte]) := by
        unfold run1
        dsimp only
        rw [if_pos (by omega)]
        cases w with
        | slice len =>
          have := hw len rfl
          dsimp only
          rw [if_neg (show ¬(len = 0) by omega)]
          simp
        | vec => simp
        | discard => simp
      rw [hrun]
      dsimp only
      rw [ih bs2 lzw sfd cfc aub ver wd ht gct bc ex cur (left - 1)
        (by omega) (by simpa using hkb)]
      cases w <;> simp [Nat.sub_sub, Nat.add_comm, List.replicate_succ]

theorem runBytes_decodeSubBlock (O : LzwOracle) (len : Nat)
    (hO : OracleOk O) :
    ∀ (k : Nat) (bs : List Nat) (mcs : Nat) (fed : List Nat) (cfec : Bool)
      (sfd cfc aub : Bool) (ver : Version) (wd ht : Nat) (gct bc : List Nat)
      (ex : ExtensionScratch) (cur : Option Frame) (left : Nat),
      k ≤ left → k ≤ bs.length →
      runBytes O (.slice len)
          ⟨.decodeSubBlock left, ⟨mcs, true, fed, cfec⟩, sfd, cfc, aub, ver,
            wd, ht, gct, bc, ex, cur⟩ (bs.take k) =
        ⟨List.replicate
            (O.produced mcs (fed ++ bs.take k) - O.produced mcs fed)
            .decodedByte,
          .running ⟨.decodeSubBlock (left - k), ⟨mcs, true, fed ++ bs.take k,
            cfec⟩, sfd, cfc, aub, ver, wd, ht, gct, bc, ex, cur⟩⟩ := by
  intro k
  induction k with
  | zero =>
    intro bs mcs fed cfec sfd cfc aub ver wd ht gct bc ex cur left hkl hkb
    simp [runBytes]
  | succ k ih =>
    intro bs mcs fed cfec sfd cfc aub ver wd ht gct bc ex cur left hkl hkb
    cases bs with
    | nil => simp at hkb
    | cons b bs2 =>
      rw [List.take_succ_cons, runBytes]
      have hrun : run1 O (.slice len)
          ⟨.decodeSubBlock left, ⟨mcs, true, fed, cfec⟩, sfd, cfc, aub, ver,
            wd, ht, gct, bc, ex, cur⟩ b =
          .cont ⟨.decodeSubBlock (left - 1), ⟨mcs, true, fed ++ [b], cfec⟩,
            sfd, cfc, aub, ver, wd, ht, gct, bc, ex, cur⟩
            (List.replicate
              (O.produced mcs (fed ++ [b]) - O.produced mcs fed)
              .decodedByte) := by
        unfold run1
        dsimp only
        rw [if_pos (by omega)]
        rw [show (⟨mcs, true, fed, cfec⟩ : LzwReader).has_ended O = false by
          simp [LzwReader.has_ended, hO.2.1]]
        dsimp only [LzwReader.decode_bytes]
        rcases hO.2.2 mcs (fed ++ [b]) with hs | hs <;> rw [hs] <;> simp
      rw [hrun]
      dsimp only
      rw [ih bs2 mcs (fed ++ [b]) cfec sfd cfc aub ver wd ht gct bc ex cur
        (left - 1) (by omega) (by simpa using hkb)]
      have hp01 : O.produced mcs fed ≤ O.produced mcs (fed ++ [b]) := hO.1 mcs fed [b]
      have hp12 : O.produced mcs (fed ++ [b]) ≤
          O.produced mcs ((fed ++ [b]) ++ bs2.take k) := hO.1 mcs (fed ++ [b]) (bs2.take k)
      simp only [List.append_assoc, List.cons_append, List.nil_append] at hp12 ⊢
      rw [← List.replicate_add]
      have hsum : O.produced mcs (fed ++ [b]) - O.produced mcs fed +
          (O.produced mcs (fed ++ b :: bs2.take k) - O.produced mcs (fed ++ [b])) =
          O.produced mcs (fed ++ b :: bs2.take k) - O.produced mcs fed := by
        omega
      rw [hsum]
      simp [Nat.sub_sub, Nat.add_comm]

theorem decode_bytes_out (r : LzwReader) (O : LzwOracle) (data : List Nat)
    (w : OutputBuffer) (r' : LzwReader) (c p : Nat)
    (h : r.decode_bytes O data w = .ok (r', c, p)) :
    p = O.produced r.min_code_size (r.fed ++ data) -
      O.produced r.min_code_size r.fed := by
  unfold LzwReader.decode_bytes at h
  dsimp only [] at h
  (repeat' split at h) <;> simp_all <;>
    exact (congrArg Prod.snd h)

theorem decode_bytes_not_vec (r : LzwReader) (O : LzwOracle) (data : List Nat)
    (w : OutputBuffer) (r' : LzwReader) (c p : Nat)
    (h : r.decode_bytes O data w = .ok (r', c, p)) :
    w ≠ .vec ∧ r.has_decoder = true := by
  unfold LzwReader.decode_bytes at h
  dsimp only [] at h
  (repeat' split at h) <;> simp_all

theorem runBytes_localPalette_none (O : LzwOracle) (w : OutputBuffer) :
    ∀ (k : Nat) (bs : List Nat) (lzw : LzwReader) (sfd cfc aub : Bool)
      (ver : Version) (wd ht : Nat) (gct bc : List Nat)
      (ex : ExtensionScratch) (fr : Frame) (left : Nat),
      k ≤ left → k ≤ bs.length → fr.palette = none →
      runBytes O w
          ⟨.localPalette left, lzw, sfd, cfc, aub, ver, wd, ht, gct, bc, ex,
            some fr⟩ (bs.take k) =
        ⟨[], .running ⟨.localPalette (left - k), lzw, sfd, cfc, aub, ver, wd,
          ht, gct, bc, ex, some fr⟩⟩ := by
  intro k
  induction k with
  | zero =>
    intro bs lzw sfd cfc aub ver wd ht gct bc ex fr left hkl hkb hpal
    simp [runBytes]
  | succ k ih =>
    intro bs lzw sfd cfc aub ver wd ht gct bc ex fr left hkl hkb hpal
    cases bs with
    | nil => simp at hkb
    | cons b bs2 =>
      rw [List.take_succ_cons, runBytes]
      have hrun : run1 O w
          ⟨.localPalette left, lzw, sfd, cfc, aub, ver, wd, ht, gct, bc, ex,
            some fr⟩ b =
          .cont ⟨.localPalette (left - 1), lzw, sfd, cfc, aub, ver, wd, ht,
            gct, bc, ex, some fr⟩ [] := by
        unfold run1
        dsimp only
        rw [if_pos (by omega), hpal]
      rw [hrun]
      dsimp only
      rw [ih bs2 lzw sfd cfc aub ver wd ht gct bc ex fr (left - 1)
        (by omega) (by simpa using hkb) hpal]
      simp [Nat.sub_sub, Nat.add_comm]

theorem runBytes_congr_head (O : LzwOracle) (w : OutputBuffer)
    (d d' : StreamingDecoder) (b : Nat) (rest : List Nat)
    (h : run1 O w d b = run1 O w d' b) :
    runBytes O w d (b :: rest) = runBytes O w d' (b :: rest) := by
  rw [runBytes, h]
  conv_rhs => rw [runBytes]

theorem step_trailer (O : LzwOracle) (w : OutputBuffer)
    (d d' : StreamingDecoder) (b : Nat) (rest : List Nat) (n : Nat)
    (h : d.next_state O w (b :: rest) = .ok d' n .trailer) :
    d' = d ∧ n = 0 ∧ d.state = .trailer := by
  obtain ⟨st, lzw, sfd, cfc, aub, ver, wd, ht, gct, bc, ex, cur⟩ := d
  cases st <;>
    simp only [StreamingDecoder.next_state] at h <;>
    (repeat' split at h) <;>
    first
      | exact StepRes.noConfusion h
      | (rw [StepRes.ok.injEq] at h
         obtain ⟨hd, hn, hev⟩ := h
         first
           | exact Decoded.noConfusion hev
           | exact ⟨hd.symm, hn.symm, rfl⟩)

theorem step_crash (O : LzwOracle) (w : OutputBuffer)
    (d : StreamingDecoder) (b : Nat) (rest : List Nat)
    (h : d.next_state O w (b :: rest) = .crashed) :
    run1 O w d b = .crashed := by
  obtain ⟨st, lzw, sfd, cfc, aub, ver, wd, ht, gct, bc, ex, cur⟩ := d
  cases st <;>
    simp only [StreamingDecoder.next_state] at h <;>
    (repeat' split at h) <;>
    first
      | exact StepRes.noConfusion h
      | (unfold run1; dsimp only; try simp_all)

theorem decode_bytes_slice_ok (r : LzwReader) (O : LzwOracle)
    (data : List Nat) (len : Nat) (hdec : r.has_decoder = true)
    (hst : ∀ m xs, O.statusOf m xs = .ok ∨ O.statusOf m xs = .done) :
    r.decode_bytes O data (.slice len) =
      .ok ({ r with fed := r.fed ++ data }, data.length,
        O.produced r.min_code_size (r.fed ++ data) -
          O.produced r.min_code_size r.fed) := by
  unfold LzwReader.decode_bytes
  rw [hdec]
  dsimp only
  rcases hst r.min_code_size (r.fed ++ data) with hs | hs <;> rw [hs] <;> rfl

theorem step_fail (O : LzwOracle) (w : OutputBuffer)
    (d d₂ : StreamingDecoder) (e : DecodingError) (b : Nat) (rest : List Nat)
    (hI : Inv d) (hW : WOk w d.skip_frame_decoding) (hO : OracleOk O)
    (h : d.next_state O w (b :: rest) = .fail d₂ e) :
    run1 O w d b = .failed e := by
  obtain ⟨st, lzw, sfd, cfc, aub, ver, wd, ht, gct, bc, ex, cur⟩ := d
  cases st
  all_goals try (
    simp only [StreamingDecoder.next_state] at h
    (repeat' split at h) <;>
      first
        | exact StepRes.noConfusion h
        | (rw [StepRes.fail.injEq] at h
           obtain ⟨hd, he⟩ := h
           subst he
           unfold run1
           dsimp only
           try simp_all
           done))
  case decodeSubBlock left =>
    have hdec : lzw.has_decoder = true := hI.2.1 left rfl
    have hsfd : sfd = false := hI.2.2 left rfl
    obtain ⟨len, rfl⟩ := hW.2 hsfd
    simp only [StreamingDecoder.next_state] at h
    by_cases hl : 0 < left
    · rw [if_pos hl] at h
      split at h
      · exact StepRes.noConfusion h
      · rw [decode_bytes_slice_ok lzw O _ len hdec hO.2.2] at h
        dsimp only [] at h
        exact StepRes.noConfusion h
    · rw [if_neg hl] at h
      split at h
      · exact StepRes.noConfusion h
      · rw [decode_bytes_slice_ok lzw O _ len hdec hO.2.2] at h
        dsimp only [] at h
        split at h <;> exact StepRes.noConfusion h

theorem step_nothing (O : LzwOracle) (w : OutputBuffer)
    (d d' : StreamingDecoder) (b : Nat) (rest : List Nat) (n : Nat)
    (hI : Inv d) (hW : WOk w d.skip_frame_decoding) (hO : OracleOk O)
    (h : d.next_state O w (b :: rest) = .ok d' n .nothing) :
    (1 ≤ n ∧ n ≤ (b :: rest).length ∧
      runBytes O w d ((b :: rest).take n) = ⟨[], .running d'⟩ ∧ Inv d') ∨
    (n = 0 ∧ run1 O w d b = run1 O w d' b ∧ Inv d') := by
  obtain ⟨st, lzw, sfd, cfc, aub, ver, wd, ht, gct, bc, ex, cur⟩ := d
  cases st
  all_goals try (
    simp only [StreamingDecoder.next_state] at h
    (repeat' split at h) <;>
      first
        | exact StepRes.noConfusion h
        | (rw [StepRes.ok.injEq] at h
           obtain ⟨hd, hn, hev⟩ := h
           first
             | exact Decoded.noConfusion hev
             | (subst hd
                subst hn
                refine Or.inl ⟨by omega, by simp, ?_, ?_⟩
                · rw [show List.take 1 (b :: rest) = [b] from rfl, runBytes]
                  unfold run1
                  dsimp only
                  try simp_all [runBytes]
                  try (split_ifs <;>
                    first | rfl | (exfalso; omega) | (exfalso; simp_all))
                  done
                · first
                    | (simp [Inv]; done)
                    | (simp only [Inv]
                       refine ⟨?_, by simp, by simp⟩
                       intro l f p h1 h2 h3
                       injection h1 with h1a
                       subst h1a
                       injection h2 with h2a
                       subst h2a
                       injection h3 with h4
                       subst h4
                       simp only [List.length_nil]
                       try dsimp only
                       omega)
                    | (simp only [Inv]
                       refine ⟨by simp, ?_, ?_⟩ <;> intro l hst <;>
                         first
                           | exact hI.2.1 _ rfl
                           | exact hI.2.2 _ rfl
                       )
                  done))
    done)
  case globalPalette left =>
    simp only [StreamingDecoder.next_state] at h
    by_cases hl : 0 < left
    · rw [if_pos hl] at h
      rw [StepRes.ok.injEq] at h
      obtain ⟨hd, hn, -⟩ := h
      subst hd
      subst hn
      refine Or.inl ⟨?_, ?_, ?_, by simp [Inv]⟩
      · simp only [List.length_cons]; omega
      · simp only [List.length_cons]; omega
      · exact runBytes_globalPalette O w _ (b :: rest) lzw sfd cfc aub ver wd
          ht gct bc ex cur left (min_le_left _ _) (min_le_right _ _)
    · rw [if_neg hl] at h
      rw [StepRes.ok.injEq] at h
      exact Decoded.noConfusion h.2.2
  case blockEnd terminator =>
    simp only [StreamingDecoder.next_state] at h
    by_cases ht0 : terminator = 0
    · rw [if_pos ht0] at h
      by_cases hb : b = 0x3B
      · rw [if_pos hb] at h
        rw [StepRes.ok.injEq] at h
        obtain ⟨hd, hn, -⟩ := h
        subst hd
        subst hn
        refine Or.inr ⟨rfl, ?_, by simp [Inv]⟩
        subst ht0
        subst hb
        unfold run1
        dsimp only
        rfl
      · rw [if_neg hb] at h
        rw [StepRes.ok.injEq] at h
        obtain ⟨hd, hn, -⟩ := h
        subst hd
        subst hn
        refine Or.inl ⟨by omega, by simp, ?_, by simp [Inv]⟩
        rw [show List.take 1 (b :: rest) = [b] from rfl, runBytes]
        unfold run1
        dsimp only
        rw [if_pos ht0, if_neg hb]
        simp [runBytes]
    · rw [if_neg ht0] at h
      exact StepRes.noConfusion h
  case skipBlock left =>
    simp only [StreamingDecoder.next_state] at h
    by_cases hl : 0 < left
    · rw [if_pos hl] at h
      rw [StepRes.ok.injEq] at h
      obtain ⟨hd, hn, -⟩ := h
      subst hd
      subst hn
      refine Or.inl ⟨?_, ?_, ?_, by simp [Inv]⟩
      · simp only [List.length_cons]; omega
      · simp only [List.length_cons]; omega
      · exact runBytes_skipBlock O w _ (b :: rest) lzw sfd cfc aub ver wd ht
          gct bc ex cur left (min_le_left _ _) (min_le_right _ _)
    · rw [if_neg hl] at h
      split at h <;>
        (rw [StepRes.ok.injEq] at h; exact Decoded.noConfusion h.2.2)
  case localPalette left =>
    simp only [StreamingDecoder.next_state] at h
    by_cases hl : 0 < left
    · rw [if_pos hl] at h
      cases cur with
      | none => exact StepRes.noConfusion h
      | some fr =>
        cases hpal : fr.palette with
        | some pal =>
          have hcap : pal.length + left ≤ fr.palette_cap := hI.1 left fr pal rfl rfl hpal
          dsimp only [] at h
          simp only [hpal] at h
          rw [if_pos (by
            simp only [List.length_cons]
            omega)] at h
          rw [StepRes.ok.injEq] at h
          obtain ⟨hd, hn, -⟩ := h
          subst hd
          subst hn
          refine Or.inl ⟨?_, ?_, ?_, ?_⟩
          · simp only [List.length_cons]; omega
          · simp only [List.length_cons]; omega
          · exact runBytes_localPalette O w _ (b :: rest) lzw sfd cfc aub ver
              wd ht gct bc ex fr pal left (min_le_left _ _) (min_le_right _ _)
              hpal hcap
          · simp only [Inv]
            refine ⟨?_, by simp, by simp⟩
            intro l f p hst hcur hp
            simp only [State.localPalette.injEq] at hst
            simp only [Option.some.injEq] at hcur
            subst hcur
            simp only [Option.some.injEq] at hp
            subst hst
            simp only [List.length_append, List.length_take] at hp ⊢
            subst hp
            simp only [List.length_append, List.length_take, List.length_cons]
            omega
        | none =>
          dsimp only [] at h
          simp only [hpal] at h
          rw [StepRes.ok.injEq] at h
          obtain ⟨hd, hn, -⟩ := h
          subst hd
          subst hn
          refine Or.inl ⟨?_, ?_, ?_, ?_⟩
          · simp only [List.length_cons]; omega
          · simp only [List.length_cons]; omega
          · exact runBytes_localPalette_none O w _ (b :: rest) lzw sfd cfc aub
              ver wd ht gct bc ex fr left (min_le_left _ _) (min_le_right _ _)
              hpal
          · simp only [Inv]
            refine ⟨?_, by simp, by simp⟩
            intro l f p hst hcur hp
            simp only [Option.some.injEq] at hcur
            subst hcur
            rw [hpal] at hp
            exact Option.noConfusion hp
    · rw [if_neg hl] at h
      rw [StepRes.ok.injEq] at h
      obtain ⟨hd, hn, -⟩ := h
      subst hd
      subst hn
      refine Or.inl ⟨by omega, by simp, ?_, by simp [Inv]⟩
      rw [show List.take 1 (b :: rest) = [b] from rfl, runBytes]
      unfold run1
      dsimp only
      rw [if_neg hl]
      simp [runBytes]
  case copySubBlock left =>
    simp only [StreamingDecoder.next_state] at h
    by_cases hl : 0 < left
    · rw [if_pos hl] at h
      split at h <;>
        first
          | (rw [StepRes.ok.injEq] at h; exact Decoded.noConfusion h.2.2)
          | (split at h <;>
              (rw [StepRes.ok.injEq] at h; exact Decoded.noConfusion h.2.2))
    · rw [if_neg hl] at h
      by_cases hb : b ≠ 0
      · rw [if_pos hb] at h
        rw [StepRes.ok.injEq] at h
        obtain ⟨hd, hn, -⟩ := h
        subst hd
        subst hn
        refine Or.inl ⟨by omega, by simp, ?_, by simp [Inv]⟩
        rw [show List.take 1 (b :: rest) = [b] from rfl, runBytes]
        unfold run1
        dsimp only
        rw [if_neg hl, if_pos hb]
        simp [runBytes]
      · rw [if_neg hb] at h
        rw [StepRes.ok.injEq] at h
        obtain ⟨hd, hn, -⟩ := h
        subst hd
        subst hn
        refine Or.inr ⟨rfl, ?_, by simp [Inv]⟩
        have hb0 : b = 0 := not_not.mp hb
        have hl0 : left = 0 := by omega
        subst hb0
        subst hl0
        unfold run1
        dsimp only
        rfl
  case decodeSubBlock left =>
    have hdec : lzw.has_decoder = true := hI.2.1 left rfl
    have hsfd : sfd = false := hI.2.2 left rfl
    obtain ⟨len, rfl⟩ := hW.2 hsfd
    simp only [StreamingDecoder.next_state] at h
    by_cases hl : 0 < left
    · rw [if_pos hl] at h
      rw [if_neg (by simp [LzwReader.has_ended, hdec, hO.2.1])] at h
      rw [decode_bytes_slice_ok lzw O _ len hdec hO.2.2] at h
      dsimp only [] at h
      rw [StepRes.ok.injEq] at h
      exact Decoded.noConfusion h.2.2
    · rw [if_neg hl] at h
      by_cases hb : b ≠ 0
      · rw [if_pos hb] at h
        rw [StepRes.ok.injEq] at h
        obtain ⟨hd, hn, -⟩ := h
        subst hd
        subst hn
        refine Or.inl ⟨by omega, by simp, ?_, ?_⟩
        · rw [show List.take 1 (b :: rest) = [b] from rfl, runBytes]
          unfold run1
          dsimp only
          rw [if_neg hl, if_pos hb]
          simp [runBytes]
        · simp only [Inv]
          exact ⟨by simp, fun l hst => hdec, fun l hst => hsfd⟩
      · rw [if_neg hb] at h
        rw [decode_bytes_slice_ok lzw O [] len hdec hO.2.2] at h
        dsimp only [] at h
        rw [show O.produced lzw.min_code_size (lzw.fed ++ []) -
            O.produced lzw.min_code_size lzw.fed = 0 from by
          rw [List.append_nil]; omega] at h
        rw [if_neg (by omega)] at h
        rw [StepRes.ok.injEq] at h
        obtain ⟨hd, hn, -⟩ := h
        subst hd
        subst hn
        refine Or.inr ⟨rfl, ?_, by simp [Inv]⟩
        have hb0 : b = 0 := not_not.mp hb
        have hl0 : left = 0 := by omega
        subst hb0
        subst hl0
        unfold run1
        dsimp only
        rw [decode_bytes_slice_ok lzw O [] len hdec hO.2.2]
        dsimp only
        rw [show O.produced lzw.min_code_size (lzw.fed ++ []) -
            O.produced lzw.min_code_size lzw.fed = 0 from by
          rw [List.append_nil]; omega]
        rw [List.append_nil]
        rfl

theorem step_event (O : LzwOracle) (w : OutputBuffer)
    (d d' : StreamingDecoder) (b : Nat) (rest : List Nat) (n : Nat)
    (ev : Decoded)
    (hI : Inv d) (hW : WOk w d.skip_frame_decoding) (hO : OracleOk O)
    (hne : ev ≠ .nothing) (hnt : ev ≠ .trailer)
    (h : d.next_state O w (b :: rest) = .ok d' n ev) :
    n ≤ (b :: rest).length ∧ Inv d' ∧
    runBytes O w d (b :: rest) =
      ⟨canon ev ++ (runBytes O w d' (List.drop n (b :: rest))).es,
        (runBytes O w d' (List.drop n (b :: rest))).out⟩ := by
  obtain ⟨st, lzw, sfd, cfc, aub, ver, wd, ht, gct, bc, ex, cur⟩ := d
  cases st
  all_goals try (
    simp only [StreamingDecoder.next_state] at h
    (repeat' split at h) <;>
      first
        | exact StepRes.noConfusion h
        | (rw [StepRes.ok.injEq] at h
           obtain ⟨hd, hn, hev⟩ := h
           subst hd
           subst hn
           subst hev
           first
             | exact absurd rfl hne
             | exact absurd rfl hnt
             | (refine ⟨by simp, ?_, ?_⟩
                · first
                    | (simp [Inv]; done)
                    | (simp only [Inv]
                       refine ⟨by simp, ?_, ?_⟩ <;> intro l hst <;>
                         first
                           | rfl
                           | simp_all
                       done)
                  done
                · rw [runBytes]
                  unfold run1
                  dsimp only
                  first
                    | rfl
                    | (split_ifs <;>
                        first | rfl | (exfalso; omega) | (exfalso; simp_all)
                       done)
                    | (try simp_all [runBytes, canon]
                       try (split_ifs <;>
                         first | rfl | (exfalso; omega) | (exfalso; simp_all))
                       done)
                  done)
           done)
    done)
  case blockStart tag =>
    simp only [StreamingDecoder.next_state] at h
    split at h
    · rw [StepRes.ok.injEq] at h
      obtain ⟨hd, hn, hev⟩ := h
      subst hd
      subst hn
      subst hev
      refine ⟨by simp, by simp [Inv], ?_⟩
      rename_i heq
      rw [runBytes]
      unfold run1
      dsimp only
      rw [heq]
      rfl
    · rw [StepRes.ok.injEq] at h
      obtain ⟨hd, hn, hev⟩ := h
      subst hd
      subst hn
      subst hev
      refine ⟨by simp, by simp [Inv], ?_⟩
      rename_i heq
      rw [runBytes]
      unfold run1
      dsimp only
      rw [heq]
      rfl
    · rw [StepRes.ok.injEq] at h
      obtain ⟨hd, hn, hev⟩ := h
      subst hd
      subst hn
      subst hev
      refine ⟨by simp, by simp [Inv], ?_⟩
      rename_i heq
      rw [runBytes]
      unfold run1
      dsimp only
      rw [heq]
      dsimp only
      rw [show List.drop 0 (b :: rest) = b :: rest from rfl]
      rw [runBytes]
      rw [show run1 O w
          ⟨.trailer, lzw, sfd, cfc, aub, ver, wd, ht, gct, bc, ex, cur⟩ b =
          .halt [.trailer] from by unfold run1; dsimp only]
      rfl
    · split at h
      · rw [StepRes.ok.injEq] at h
        obtain ⟨-, -, hev⟩ := h
        exact absurd hev.symm hne
      · exact StepRes.noConfusion h
  case copySubBlock left =>
    simp only [StreamingDecoder.next_state] at h
    by_cases hl : 0 < left
    · rw [if_pos hl] at h
      cases w with
      | slice len =>
        dsimp only [] at h
        rw [StepRes.ok.injEq] at h
        obtain ⟨hd, hn, hev⟩ := h
        subst hd
        subst hn
        subst hev
        refine ⟨?_, by simp [Inv], ?_⟩
        · simp only [List.length_cons]; omega
        · have hsplit := List.take_append_drop
            (min (min left (b :: rest).length) len) (b :: rest)
          conv_lhs => rw [← hsplit]
          rw [runBytes_append]
          rw [runBytes_copySubBlock O (.slice len) hW.1 _ (b :: rest) lzw sfd
            cfc aub ver wd ht gct bc ex cur left
            (le_trans (min_le_left _ _) (min_le_left _ _))
            (le_trans (min_le_left _ _) (min_le_right _ _))]
          simp [canon]
      | vec =>
        dsimp only [] at h
        rw [StepRes.ok.injEq] at h
        obtain ⟨hd, hn, hev⟩ := h
        subst hd
        subst hn
        subst hev
        refine ⟨?_, by simp [Inv], ?_⟩
        · simp only [List.length_cons]; omega
        · have hsplit := List.take_append_drop
            (min left (b :: rest).length) (b :: rest)
          conv_lhs => rw [← hsplit]
          rw [runBytes_append]
          rw [runBytes_copySubBlock O .vec hW.1 _ (b :: rest) lzw sfd
            cfc aub ver wd ht gct bc ex cur left
            (min_le_left _ _) (min_le_right _ _)]
          simp [canon]
      | discard =>
        dsimp only [] at h
        rw [StepRes.ok.injEq] at h
        obtain ⟨hd, hn, hev⟩ := h
        subst hd
        subst hn
        subst hev
        refine ⟨?_, by simp [Inv], ?_⟩
        · simp only [List.length_cons]; omega
        · have hsplit := List.take_append_drop
            (min left (b :: rest).length) (b :: rest)
          conv_lhs => rw [← hsplit]
          rw [runBytes_append]
          rw [runBytes_copySubBlock O .discard hW.1 _ (b :: rest) lzw sfd
            cfc aub ver wd ht gct bc ex cur left
            (min_le_left _ _) (min_le_right _ _)]
          simp [canon]
    · rw [if_neg hl] at h
      split at h
      · rw [StepRes.ok.injEq] at h
        obtain ⟨-, -, hev⟩ := h
        exact absurd hev.symm hne
      · rw [StepRes.ok.injEq] at h
        obtain ⟨-, -, hev⟩ := h
        exact absurd hev.symm hne
  case decodeSubBlock left =>
    have hdec : lzw.has_decoder = true := hI.2.1 left rfl
    have hsfd : sfd = false := hI.2.2 left rfl
    obtain ⟨len, rfl⟩ := hW.2 hsfd
    obtain ⟨mcs, hdb, fed, cfec⟩ := lzw
    simp only [] at hdec
    subst hdec
    simp only [StreamingDecoder.next_state] at h
    by_cases hl : 0 < left
    · rw [if_pos hl] at h
      rw [if_neg (by simp [LzwReader.has_ended, hO.2.1])] at h
      rw [decode_bytes_slice_ok ⟨mcs, true, fed, cfec⟩ O _ len rfl hO.2.2] at h
      dsimp only [] at h
      rw [StepRes.ok.injEq] at h
      obtain ⟨hd, hn, hev⟩ := h
      rw [List.length_take, min_eq_left (min_le_right _ _)] at hn
      subst hd
      subst hn
      subst hev
      refine ⟨?_, ?_, ?_⟩
      · simp only [List.length_cons]; omega
      · simp [Inv, hsfd]
      · have hsplit := List.take_append_drop
          (min left (b :: rest).length) (b :: rest)
        conv_lhs => rw [← hsplit]
        rw [runBytes_append]
        rw [runBytes_decodeSubBlock O len hO _ (b :: rest) mcs fed cfec sfd
          cfc aub ver wd ht gct bc ex cur left
          (min_le_left _ _) (min_le_right _ _)]
        simp [canon]
    · rw [if_neg hl] at h
      split at h
      · rw [StepRes.ok.injEq] at h
        obtain ⟨-, -, hev⟩ := h
        exact absurd hev.symm hne
      · rw [decode_bytes_slice_ok ⟨mcs, true, fed, cfec⟩ O [] len rfl
          hO.2.2] at h
        dsimp only [] at h
        rw [show O.produced mcs (fed ++ []) - O.produced mcs fed = 0 from by
          rw [List.append_nil]; omega] at h
        rw [if_neg (by omega)] at h
        rw [StepRes.ok.injEq] at h
        obtain ⟨-, -, hev⟩ := h
        exact absurd hev.symm hne

theorem update_runBytes (O : LzwOracle) (w : OutputBuffer) :
    ∀ N (d : StreamingDecoder) (buf : List Nat),
      2 * buf.length + urank d.state ≤ N →
      Inv d → WOk w d.skip_frame_decoding → OracleOk O →
      (match d.update O w buf with
       | .ok d' n .nothing =>
           n = buf.length ∧ runBytes O w d buf = ⟨[], .running d'⟩ ∧ Inv d' ∧
           d'.skip_frame_decoding = d.skip_frame_decoding
       | .ok d' n .trailer => d' = d ∧ n = 0 ∧ d.state = .trailer ∧ buf ≠ []
       | .ok d' n ev =>
           n ≤ buf.length ∧ Inv d' ∧
           d'.skip_frame_decoding = d.skip_frame_decoding ∧
           runBytes O w d buf =
             ⟨canon ev ++ (runBytes O w d' (List.drop n buf)).es,
               (runBytes O w d' (List.drop n buf)).out⟩
       | .fail _ e => runBytes O w d buf = ⟨[], .failed e⟩
       | .crashed => runBytes O w d buf = ⟨[], .crashed⟩) := by
  intro N
  induction N using Nat.strong_induction_on with
  | _ N ih =>
    intro d buf hN hI hW hO
    cases buf with
    | nil =>
      rw [update_nil]
      exact ⟨rfl, rfl, hI, rfl⟩
    | cons b rest =>
      rw [update_cons]
      cases hns : d.next_state O w (b :: rest) with
      | crashed =>
        dsimp only
        rw [runBytes, step_crash O w d b rest hns]
      | fail d₂ e =>
        dsimp only
        rw [runBytes, step_fail O w d d₂ e b rest hI hW hO hns]
      | ok d₂ n₂ ev₂ =>
        have hskip2 : d₂.skip_frame_decoding = d.skip_frame_decoding :=
          next_state_skip_eq O w d d₂ (b :: rest) n₂ ev₂ hns
        cases ev₂
        case nothing =>
          obtain ⟨hle, hprog⟩ :=
            next_state_ok_facts O w d d₂ (b :: rest) n₂ .nothing hns
          rcases step_nothing O w d d₂ b rest n₂ hI hW hO hns with
            ⟨hn1, hnle, hrB, hI₂⟩ | ⟨hn0, hr1, hI₂⟩
          · have hmeas :
                2 * (List.drop n₂ (b :: rest)).length + urank d₂.state < N := by
              rcases hprog rfl with ⟨h1, h2⟩ | ⟨h1, h2⟩ <;>
                (simp only [List.length_drop, List.length_cons] at hN ⊢
                 omega)
            have IH := ih _ hmeas d₂ (List.drop n₂ (b :: rest)) le_rfl hI₂
              (by rw [hskip2]; exact hW) hO
            have hcomp : runBytes O w d (b :: rest) =
                runBytes O w d₂ (List.drop n₂ (b :: rest)) := by
              conv_lhs => rw [← List.take_append_drop n₂ (b :: rest)]
              rw [runBytes_append, hrB]
              rfl
            dsimp only
            cases hu : d₂.update O w (List.drop n₂ (b :: rest)) with
            | ok d₃ m ev₃ =>
              rw [hu] at IH
              cases ev₃
              case nothing =>
                dsimp only at IH ⊢
                obtain ⟨hm, hrB₃, hI₃, hsk₃⟩ := IH
                refine ⟨?_, ?_, hI₃, by rw [hsk₃, hskip2]⟩
                · simp only [List.length_drop, List.length_cons] at hm hnle ⊢
                  omega
                · rw [hcomp, hrB₃]
              case trailer =>
                dsimp only at IH ⊢
                obtain ⟨-, -, hst, -⟩ := IH
                exact absurd hst
                  (nothing_step_not_trailer O w d d₂ (b :: rest) n₂ hns)
              all_goals
                dsimp only at IH ⊢
                obtain ⟨hm, hI₃, hsk₃, hrB₃⟩ := IH
                refine ⟨?_, hI₃, by rw [hsk₃, hskip2], ?_⟩
                · simp only [List.length_drop, List.length_cons] at hm hnle ⊢
                  omega
                · rw [hcomp, hrB₃]
                  simp only [List.drop_drop]
                  try rw [show m + n₂ = n₂ + m from Nat.add_comm m n₂]
                  try rfl
            | fail d₃ e =>
              rw [hu] at IH
              dsimp only at IH ⊢
              rw [hcomp, IH]
            | crashed =>
              rw [hu] at IH
              dsimp only at IH ⊢
              rw [hcomp, IH]
          · have hmeas : 2 * (b :: rest).length + urank d₂.state < N := by
              rcases hprog rfl with ⟨h1, h2⟩ | ⟨h1, h2⟩ <;> omega
            have IH := ih _ hmeas d₂ (b :: rest) le_rfl hI₂
              (by rw [hskip2]; exact hW) hO
            have hcomp : runBytes O w d (b :: rest) =
                runBytes O w d₂ (b :: rest) :=
              runBytes_congr_head O w d d₂ b rest hr1
            subst hn0
            dsimp only
            rw [show List.drop 0 (b :: rest) = b :: rest from rfl]
            cases hu : d₂.update O w (b :: rest) with
            | ok d₃ m ev₃ =>
              rw [hu] at IH
              cases ev₃
              case nothing =>
                dsimp only at IH ⊢
                obtain ⟨hm, hrB₃, hI₃, hsk₃⟩ := IH
                exact ⟨by omega, by rw [hcomp, hrB₃], hI₃, by rw [hsk₃, hskip2]⟩
              case trailer =>
                dsimp only at IH ⊢
                obtain ⟨-, -, hst, -⟩ := IH
                exact absurd hst
                  (nothing_step_not_trailer O w d d₂ (b :: rest) 0 hns)
              all_goals
                dsimp only at IH ⊢
                obtain ⟨hm, hI₃, hsk₃, hrB₃⟩ := IH
                refine ⟨by omega, hI₃, by rw [hsk₃, hskip2], ?_⟩
                rw [hcomp, hrB₃]
                rw [show 0 + m = m from Nat.zero_add m]
            | fail d₃ e =>
              rw [hu] at IH
              dsimp only at IH ⊢
              rw [hcomp, IH]
            | crashed =>
              rw [hu] at IH
              dsimp only at IH ⊢
              rw [hcomp, IH]
        case trailer =>
          obtain ⟨hd2, hn2, hstate⟩ :=
            step_trailer O w d d₂ b rest n₂ hns
          subst hd2
          subst hn2
          dsimp only
          exact ⟨rfl, rfl, hstate, by simp⟩
        all_goals
          dsimp only
          obtain ⟨hle2, hI₂, hrB₂⟩ :=
            step_event O w d d₂ b rest n₂ _ hI hW hO (by simp) (by simp) hns
          exact ⟨hle2, hI₂, hskip2, hrB₂⟩

theorem step_zero_event (O : LzwOracle) (w : OutputBuffer)
    (hw : ∀ len, w = .slice len → 1 ≤ len)
    (d d' : StreamingDecoder) (b : Nat) (rest : List Nat) (ev : Decoded)
    (h : d.next_state O w (b :: rest) = .ok d' 0 ev)
    (hne : ev ≠ .nothing) (hnt : ev ≠ .trailer) :
    ev = .blockStart .trailer ∧ d'.state = .trailer := by
  obtain ⟨st, lzw, sfd, cfc, aub, ver, wd, ht, gct, bc, ex, cur⟩ := d
  cases st <;>
    simp only [StreamingDecoder.next_state] at h <;>
    (repeat' split at h) <;>
    first
      | exact StepRes.noConfusion h
      | (rw [StepRes.ok.injEq] at h
         obtain ⟨hd, hn, hev⟩ := h
         subst hd
         first
           | exact absurd hev.symm hne
           | exact absurd hev.symm hnt
           | exact ⟨hev.symm, rfl⟩
           | (exfalso
              try simp only [List.length_take, List.length_cons] at hn
              omega)
           | (exfalso
              have := hw _ rfl
              try simp only [List.length_take, List.length_cons] at hn
              omega)
           | (exfalso
              rename_i heq
              have hsh := (decode_bytes_ok_shape _ _ _ _ _ _ _ heq).1
              subst hsh
              simp only [List.length_take, List.length_cons] at hn
              omega)
           | (exfalso
              rename_i heq hp
              have := (decode_bytes_nil _ _ _ _ _ _ heq).2.2
              omega)
           | (exfalso
              rename_i x heq hp
              have := (decode_bytes_nil _ _ _ _ _ _ heq).2.2
              omega))

theorem update_trailer_step (O : LzwOracle) (w : OutputBuffer)
    (d : StreamingDecoder) (b : Nat) (rest : List Nat)
    (hst : d.state = .trailer) :
    d.update O w (b :: rest) = .ok d 0 .trailer := by
  rw [update_cons]
  rw [show d.next_state O w (b :: rest) = .ok d 0 .trailer from by
    simp only [StreamingDecoder.next_state, hst]]

theorem update_zero_event (O : LzwOracle) (w : OutputBuffer)
    (hw : ∀ len, w = .slice len → 1 ≤ len) :
    ∀ N (d : StreamingDecoder) (buf : List Nat) (d' : StreamingDecoder)
      (ev : Decoded),
      2 * buf.length + urank d.state ≤ N →
      d.update O w buf = .ok d' 0 ev → ev ≠ .nothing → ev ≠ .trailer →
      d'.state = .trailer := by
  intro N
  induction N using Nat.strong_induction_on with
  | _ N ih =>
    intro d buf d' ev hN h hne hnt
    cases buf with
    | nil =>
      rw [update_nil] at h
      rw [StepRes.ok.injEq] at h
      exact absurd h.2.2.symm hne
    | cons b rest =>
      rw [update_cons] at h
      cases hns : d.next_state O w (b :: rest) with
      | crashed => rw [hns] at h; exact StepRes.noConfusion h
      | fail d₂ e => rw [hns] at h; exact StepRes.noConfusion h
      | ok d₂ n₂ ev₂ =>
        rw [hns] at h
        cases ev₂
        case nothing =>
          dsimp only at h
          cases hu : d₂.update O w (List.drop n₂ (b :: rest)) with
          | crashed => rw [hu] at h; exact StepRes.noConfusion h
          | fail d₃ e => rw [hu] at h; exact StepRes.noConfusion h
          | ok d₃ m ev₃ =>
            rw [hu] at h
            dsimp only at h
            rw [StepRes.ok.injEq] at h
            obtain ⟨hd, hn, hev⟩ := h
            subst hd
            subst hev
            have hn₂ : n₂ = 0 := by omega
            have hm : m = 0 := by omega
            subst hn₂
            subst hm
            obtain ⟨-, hprog⟩ :=
              next_state_ok_facts O w d d₂ (b :: rest) 0 .nothing hns
            have hmeas : 2 * (List.drop 0 (b :: rest)).length +
                urank d₂.state < N := by
              rcases hprog rfl with ⟨h1, h2⟩ | ⟨h1, h2⟩ <;>
                (simp only [List.drop_zero]; omega)
            exact ih _ hmeas d₂ (List.drop 0 (b :: rest)) d₃ ev₃ le_rfl hu
              hne hnt
        case trailer =>
          dsimp only at h
          rw [StepRes.ok.injEq] at h
          exact absurd h.2.2.symm hnt
        all_goals
          dsimp only at h
          rw [StepRes.ok.injEq] at h
          obtain ⟨hd, hn, hev⟩ := h
          subst hd
          exact (step_zero_event O w hw d d₂ b rest _
            (hn ▸ hns) (hev ▸ hne) (hev ▸ hnt)).2

theorem driveF_trailer (O : LzwOracle) (w : OutputBuffer)
    (d : StreamingDecoder) (f : Nat) (b : Nat) (rest : List Nat)
    (hf : 1 ≤ f) (hst : d.state = .trailer) :
    driveF O w f d (b :: rest) = ⟨[.trailer], .halted⟩ := by
  match f, hf with
  | f + 1, _ =>
    rw [driveF]
    rw [update_trailer_step O w d b rest hst]

theorem driveF_fuel_irrel (O : LzwOracle) (w : OutputBuffer)
    (hw : ∀ len, w = .slice len → 1 ≤ len) :
    ∀ (M : Nat) (f₁ f₂ : Nat) (d : StreamingDecoder) (buf : List Nat),
      buf.length ≤ M →
      buf.length + 2 ≤ f₁ → buf.length + 2 ≤ f₂ →
      driveF O w f₁ d buf = driveF O w f₂ d buf := by
  intro M
  induction M using Nat.strong_induction_on with
  | _ M ih =>
    intro f₁ f₂ d buf hM h1 h2
    cases f₁ with
    | zero => exact absurd h1 (by omega)
    | succ f₁ =>
      cases f₂ with
      | zero => exact absurd h2 (by omega)
      | succ f₂ =>
        cases buf with
        | nil => rw [driveF, driveF]
        | cons b rest =>
          rw [driveF, driveF]
          cases hu : d.update O w (b :: rest) with
          | crashed => rfl
          | fail d₂ e => rfl
          | ok d₂ n ev =>
            cases ev
            case nothing => rfl
            case trailer => rfl
            all_goals
              dsimp only
              by_cases hn : n = 0
              · subst hn
                have hst : d₂.state = .trailer :=
                  update_zero_event O w hw
                    (2 * (b :: rest).length + urank d.state)
                    d (b :: rest) d₂ _ le_rfl hu (by simp) (by simp)
                rw [show List.drop 0 (b :: rest) = b :: rest from rfl]
                rw [driveF_trailer O w d₂ f₁ b rest (by omega) hst,
                  driveF_trailer O w d₂ f₂ b rest (by omega) hst]
              · rw [ih (List.drop n (b :: rest)).length
                  (by simp only [List.length_drop, List.length_cons] at hM ⊢
                      omega)
                  f₁ f₂ d₂ (List.drop n (b :: rest)) le_rfl
                  (by simp only [List.length_drop, List.length_cons] at h1 ⊢
                      omega)
                  (by simp only [List.length_drop, List.length_cons] at h2 ⊢
                      omega)]

theorem run1_trailer (O : LzwOracle) (w : OutputBuffer)
    (d : StreamingDecoder) (b : Nat) (hst : d.state = .trailer) :
    run1 O w d b = .halt [.trailer] := by
  unfold run1
  rw [hst]

theorem runBytes_trailer (O : LzwOracle) (w : OutputBuffer)
    (d : StreamingDecoder) (b : Nat) (rest : List Nat)
    (hst : d.state = .trailer) :
    runBytes O w d (b :: rest) = ⟨[.trailer], .halted⟩ := by
  rw [runBytes, run1_trailer O w d b hst]

theorem drive_cons_event (O : LzwOracle) (w : OutputBuffer)
    (hw : ∀ len, w = .slice len → 1 ≤ len)
    (d d₂ : StreamingDecoder) (b : Nat) (rest : List Nat) (n : Nat)
    (ev : Decoded)
    (hu : d.update O w (b :: rest) = .ok d₂ n ev)
    (hne : ev ≠ .nothing) (hnt : ev ≠ .trailer) (hn : 1 ≤ n) :
    drive O w d (b :: rest) =
      ⟨ev :: (drive O w d₂ (List.drop n (b :: rest))).es,
        (drive O w d₂ (List.drop n (b :: rest))).out⟩ := by
  have hfuel : driveF O w ((b :: rest).length + 1) d₂
      (List.drop n (b :: rest)) =
      drive O w d₂ (List.drop n (b :: rest)) :=
    driveF_fuel_irrel O w hw (List.drop n (b :: rest)).length
      ((b :: rest).length + 1) ((List.drop n (b :: rest)).length + 2)
      d₂ (List.drop n (b :: rest)) le_rfl
      (by simp only [List.length_drop, List.length_cons]; omega) le_rfl
  show driveF O w ((b :: rest).length + 2) d (b :: rest) = _
  rw [show (b :: rest).length + 2 = ((b :: rest).length + 1) + 1 from rfl]
  rw [driveF, hu]
  cases ev <;>
    first
      | exact absurd rfl hne
      | exact absurd rfl hnt
      | (dsimp only; rw [hfuel])

theorem drive_cons_event_zero (O : LzwOracle) (w : OutputBuffer)
    (hw : ∀ len, w = .slice len → 1 ≤ len)
    (d d₂ : StreamingDecoder) (b : Nat) (rest : List Nat) (ev : Decoded)
    (hu : d.update O w (b :: rest) = .ok d₂ 0 ev)
    (hne : ev ≠ .nothing) (hnt : ev ≠ .trailer) :
    drive O w d (b :: rest) = ⟨[ev, .trailer], .halted⟩ := by
  have hst₂ : d₂.state = .trailer :=
    update_zero_event O w hw (2 * (b :: rest).length + urank d.state)
      d (b :: rest) d₂ ev le_rfl hu hne hnt
  show driveF O w ((b :: rest).length + 2) d (b :: rest) = _
  rw [show (b :: rest).length + 2 = ((b :: rest).length + 1) + 1 from rfl]
  rw [driveF, hu]
  cases ev <;>
    first
      | exact absurd rfl hne
      | exact absurd rfl hnt
      | (dsimp only
         rw [show List.drop 0 (b :: rest) = b :: rest from rfl]
         rw [driveF_trailer O w d₂ ((b :: rest).length + 1) b rest
           (by omega) hst₂])

theorem drive_runBytes (O : LzwOracle) (w : OutputBuffer) :
    ∀ N (d : StreamingDecoder) (buf : List Nat),
      buf.length ≤ N → Inv d → WOk w d.skip_frame_decoding → OracleOk O →
      (drive O w d buf).toCanon = runBytes O w d buf ∧
      (∀ d', (drive O w d buf).out = .exhausted d' →
        Inv d' ∧ d'.skip_frame_decoding = d.skip_frame_decoding) := by
  intro N
  induction N using Nat.strong_induction_on with
  | _ N ih =>
    intro d buf hN hI hW hO
    cases buf with
    | nil =>
      refine ⟨rfl, ?_⟩
      intro d' h'
      rw [show (drive O w d []).out = .exhausted d from rfl] at h'
      rw [DOut.exhausted.injEq] at h'
      subst h'
      exact ⟨hI, rfl⟩
    | cons b rest =>
      have U := update_runBytes O w (2 * (b :: rest).length + urank d.state)
        d (b :: rest) le_rfl hI hW hO
      cases hu : d.update O w (b :: rest) with
      | crashed =>
        rw [hu] at U
        dsimp only at U
        have hdrv : drive O w d (b :: rest) = ⟨[], .crashed⟩ := by
          show driveF O w ((b :: rest).length + 2) d (b :: rest) = _
          rw [show (b :: rest).length + 2 = ((b :: rest).length + 1) + 1
            from rfl]
          rw [driveF, hu]
        refine ⟨by rw [hdrv, U]; rfl, ?_⟩
        intro d' h'
        rw [hdrv] at h'
        exact DOut.noConfusion h'
      | fail d₂ e =>
        rw [hu] at U
        dsimp only at U
        have hdrv : drive O w d (b :: rest) = ⟨[], .failed e⟩ := by
          show driveF O w ((b :: rest).length + 2) d (b :: rest) = _
          rw [show (b :: rest).length + 2 = ((b :: rest).length + 1) + 1
            from rfl]
          rw [driveF, hu]
        refine ⟨by rw [hdrv, U]; rfl, ?_⟩
        intro d' h'
        rw [hdrv] at h'
        exact DOut.noConfusion h'
      | ok d₂ n ev =>
        rw [hu] at U
        cases ev
        case nothing =>
          dsimp only at U
          obtain ⟨hn, hrB, hI₂, hsk⟩ := U
          have hdrv : drive O w d (b :: rest) = ⟨[], .exhausted d₂⟩ := by
            show driveF O w ((b :: rest).length + 2) d (b :: rest) = _
            rw [show (b :: rest).length + 2 = ((b :: rest).length + 1) + 1
              from rfl]
            rw [driveF, hu]
          refine ⟨by rw [hdrv, hrB]; rfl, ?_⟩
          intro d' h'
          rw [hdrv] at h'
          dsimp only at h'
          rw [DOut.exhausted.injEq] at h'
          subst h'
          exact ⟨hI₂, hsk⟩
        case trailer =>
          dsimp only at U
          obtain ⟨hd₂, hn0, hstate, -⟩ := U
          have hdrv : drive O w d (b :: rest) = ⟨[.trailer], .halted⟩ := by
            show driveF O w ((b :: rest).length + 2) d (b :: rest) = _
            rw [show (b :: rest).length + 2 = ((b :: rest).length + 1) + 1
              from rfl]
            rw [driveF, hu]
          refine ⟨?_, ?_⟩
          · rw [hdrv, runBytes_trailer O w d b rest hstate]
            rfl
          · intro d' h'
            rw [hdrv] at h'
            exact DOut.noConfusion h'
        all_goals
          dsimp only at U
          obtain ⟨hle, hI₂, hsk, hrB⟩ := U
          by_cases hn0 : n = 0
          · subst hn0
            have hdrv := drive_cons_event_zero O w hW.1 d d₂ b rest _ hu
              (by simp) (by simp)
            have hst₂ : d₂.state = .trailer :=
              update_zero_event O w hW.1
                (2 * (b :: rest).length + urank d.state)
                d (b :: rest) d₂ _ le_rfl hu (by simp) (by simp)
            rw [show List.drop 0 (b :: rest) = b :: rest from rfl] at hrB
            refine ⟨?_, ?_⟩
            · rw [hdrv, hrB, runBytes_trailer O w d₂ b rest hst₂]
              rfl
            · intro d' h'
              rw [hdrv] at h'
              exact DOut.noConfusion h'
          · have hIH := ih (List.drop n (b :: rest)).length
              (by simp only [List.length_drop, List.length_cons] at hN ⊢
                  omega)
              d₂ (List.drop n (b :: rest)) le_rfl hI₂
              (by rw [hsk]; exact hW) hO
            have hdrv := drive_cons_event O w hW.1 d d₂ b rest n _ hu
              (by simp) (by simp) (by omega)
            obtain ⟨hcan, hexh⟩ := hIH
            have h1 := congrArg RunRes.es hcan
            have h2 := congrArg RunRes.out hcan
            simp only [DriveRes.toCanon] at h1 h2
            refine ⟨?_, ?_⟩
            · rw [hdrv, hrB]
              simp only [DriveRes.toCanon, List.map_cons, List.flatten_cons]
              rw [h1, h2]
            · intro d' h'
              rw [hdrv] at h'
              dsimp only at h'
              obtain ⟨hI₃, hsk₃⟩ := hexh d' h'
              exact ⟨hI₃, by rw [hsk₃, hsk]⟩

theorem driveChunks_runBytes (O : LzwOracle) (w : OutputBuffer) :
    ∀ (cs : List (List Nat)) (d : StreamingDecoder),
      Inv d → WOk w d.skip_frame_decoding → OracleOk O →
      (driveChunks O w d cs).toCanon = runBytes O w d cs.flatten := by
  intro cs
  induction cs with
  | nil => intro d hI hW hO; rfl
  | cons c cs ih =>
    intro d hI hW hO
    obtain ⟨hcan, hexh⟩ := drive_runBytes O w c.length d c le_rfl hI hW hO
    rw [List.flatten_cons, runBytes_append, ← hcan]
    rw [driveChunks]
    cases hdc : drive O w d c with
    | mk es out =>
      cases out with
      | exhausted d' =>
        obtain ⟨hI', hsk'⟩ := hexh d' (by rw [hdc])
        dsimp only [DriveRes.toCanon, DOut.toRun]
        rw [← ih d' hI' (by rw [hsk']; exact hW) hO]
        simp [DriveRes.toCanon, DOut.toRun]
      | halted => dsimp only [DriveRes.toCanon, DOut.toRun]
      | failed e => dsimp only [DriveRes.toCanon, DOut.toRun]
      | crashed => dsimp only [DriveRes.toCanon, DOut.toRun]
      | stuck => dsimp only [DriveRes.toCanon, DOut.toRun]

/-- Feeding a valid GIF stream in chunks emits the decoded events at a
    different granularity than feeding it whole: the single-chunk run of
    `tinyGif` reports its two LZW data bytes as one `LzwDataCopied 2` event,
    while the byte-by-byte run reports two `LzwDataCopied 1` events, so the
    raw event sequences differ — yet the canonical views agree. -/
theorem chunk_counterexample :
    (driveChunks trivialOracle .vec
        (StreamingDecoder.with_options false true false false)
        [tinyGif]).es ≠
      (driveChunks trivialOracle .vec
        (StreamingDecoder.with_options false true false false)
        (tinyGif.map (fun b => [b]))).es ∧
    (driveChunks trivialOracle .vec
        (StreamingDecoder.with_options false true false false)
        [tinyGif]).toCanon =
      (driveChunks trivialOracle .vec
        (StreamingDecoder.with_options false true false false)
        (tinyGif.map (fun b => [b]))).toCanon := by
  constructor
  · decide
  · decide

/-- C1: chunk invariance of streaming decoding, up to data-event
    granularity.  For a decoder whose pending-palette and LZW-reader
    invariants hold, a sink that is not a zero-length slice and is a slice
    when frame data is decoded rather than copied, and an LZW oracle that is
    monotone and neither errs nor ends early, feeding any two partitions of
    the same byte stream through repeated `StreamingDecoder::update` calls
    produces the same canonical event sequence and the same outcome — where
    the canonical view expands each `BytesDecoded n` / `LzwDataCopied n`
    into `n` unit events.  The raw event sequences may differ between
    partitions (see the counterexample), so invariance holds at canonical
    granularity, not event-for-event. -/
theorem chunk_invariance (O : LzwOracle) (w : OutputBuffer)
    (d : StreamingDecoder) (cs₁ cs₂ : List (List Nat))
    (hI : Inv d) (hW : WOk w d.skip_frame_decoding) (hO : OracleOk O)
    (hflat : cs₁.flatten = cs₂.flatten) :
    (driveChunks O w d cs₁).toCanon = (driveChunks O w d cs₂).toCanon := by
  rw [driveChunks_runBytes O w cs₁ d hI hW hO,
    driveChunks_runBytes O w cs₂ d hI hW hO, hflat]

theorem chunk_invariance_witness :
    (driveChunks trivialOracle .vec
        (StreamingDecoder.with_options false true false false)
        [tinyGif]).toCanon =
      (driveChunks trivialOracle .vec
        (StreamingDecoder.with_options false true false false)
        (tinyGif.map (fun b => [b]))).toCanon :=
  chunk_invariance trivialOracle .vec
    (StreamingDecoder.with_options false true false false)
    [tinyGif] (tinyGif.map (fun b => [b]))
    (by simp [Inv, StreamingDecoder.with_options])
    (by simp [WOk, StreamingDecoder.with_options])
    ⟨fun m xs ys => le_refl 0, fun m xs => rfl, fun m xs => Or.inl rfl⟩
    (by decide)

end GifSpec
